import Mathlib

/-!
Verification of the meeting-protocol pipeline of this repository.

The TypeScript sources are embedded shallowly: strings are `List Char`
(`Str`), JavaScript regular expressions are compiled by hand into
character-level scanners that reproduce their greedy/backtracking
behaviour on the character classes that actually occur, and the React
state updates relevant to the claims are modelled as pure functions on
explicit state.  Every definition carries a reference to the source
file and lines it embeds.
-/

namespace Proto

/-- Strings are lists of characters. -/
abbrev Str := List Char

/-- Coerce a Lean string literal to the `Str` representation. -/
def str (s : String) : Str := s.data

/-- JavaScript whitespace class `\s` (the characters relevant here:
space, tab, newline, carriage return, form feed, vertical tab,
no-break space and BOM; the exotic Unicode spaces are included for
completeness of the common ranges). -/
def isWs (c : Char) : Bool :=
  c.toNat = 32 ∨ c.toNat = 9 ∨ c.toNat = 10 ∨ c.toNat = 13 ∨ c.toNat = 12 ∨
  c.toNat = 11 ∨ c.toNat = 0xa0 ∨ c.toNat = 0x1680 ∨
  (0x2000 ≤ c.toNat ∧ c.toNat ≤ 0x200a) ∨ c.toNat = 0x2028 ∨ c.toNat = 0x2029 ∨
  c.toNat = 0x202f ∨ c.toNat = 0x205f ∨ c.toNat = 0x3000 ∨ c.toNat = 0xfeff

/-- ASCII decimal digit, the `\d` class. -/
def isDigit (c : Char) : Bool := 48 ≤ c.toNat ∧ c.toNat ≤ 57

/-- The character class `[A-Z0-9]` (case-sensitive, as in the sources
where the regex carries no `i` flag). -/
def isUpperAlnum (c : Char) : Bool := (65 ≤ c.toNat ∧ c.toNat ≤ 90) ∨ isDigit c

/-- The class `[A-Z0-9]` under the `i` flag: either letter case. -/
def isAlnumCI (c : Char) : Bool :=
  (65 ≤ c.toNat ∧ c.toNat ≤ 90) ∨ (97 ≤ c.toNat ∧ c.toNat ≤ 122) ∨ isDigit c

/-- Case folding used for `i`-flagged matching: ASCII `A-Z` and the
Cyrillic range `А-Я` (plus `Ё`) are mapped to their lowercase forms,
everything else is fixed.  This is the canonicalisation JavaScript
applies to the letters appearing in this code base. -/
def jsLower (c : Char) : Char :=
  if 'A' ≤ c ∧ c ≤ 'Z' then Char.ofNat (c.toNat + 32)
  else if 0x410 ≤ c.toNat ∧ c.toNat ≤ 0x42f then Char.ofNat (c.toNat + 0x20)
  else if c.toNat = 0x401 then Char.ofNat 0x451
  else c

/-- Case-insensitive character comparison. -/
def ciEq (a b : Char) : Bool := jsLower a = jsLower b

/-- `String.prototype.trim`: strip leading and trailing whitespace. -/
def jsTrim (s : Str) : Str :=
  ((s.dropWhile isWs).reverse.dropWhile isWs).reverse

/-- Case-sensitive literal match: consume `lit` from the front of `s`
and return the rest, or fail. -/
def litCS : Str → Str → Option Str
  | [], s => some s
  | _ :: _, [] => none
  | l :: ls, c :: cs => if c = l then litCS ls cs else none

/-- Case-insensitive literal match (`i` flag): consume `lit` from the
front of `s` and return the rest, or fail. -/
def litCI : Str → Str → Option Str
  | [], s => some s
  | _ :: _, [] => none
  | l :: ls, c :: cs => if ciEq c l then litCI ls cs else none

/-- Wrap a literal-match result as a `(consumed whitespace, rest)` pair
with no whitespace consumed. -/
def noWs (o : Option Str) : Option (Str × Str) :=
  match o with
  | some r => some ([], r)
  | none => none

/-- Greedy `\s*` followed by a literal, with the backtracking of a
JavaScript engine at the junction: the longest whitespace run after
which the literal still matches wins.  Returns the consumed whitespace
and the rest after the literal. -/
def wsLit (lit : Str) : Str → Option (Str × Str)
  | [] => noWs (litCI lit [])
  | c :: cs =>
    if isWs c then
      match wsLit lit cs with
      | some (w, r) => some (c :: w, r)
      | none => noWs (litCI lit (c :: cs))
    else noWs (litCI lit (c :: cs))

/-- Greedy `\s+` followed by a literal (at least one whitespace
character, then as `wsLit`). -/
def ws1Lit (lit : Str) : Str → Option (Str × Str)
  | [] => none
  | c :: cs =>
    if isWs c then
      match wsLit lit cs with
      | some (w, r) => some (c :: w, r)
      | none => none
    else none

theorem litCS_length : ∀ l s r, litCS l s = some r → r.length ≤ s.length := by
  intro l
  induction l with
  | nil => intro s r h; cases h; simp
  | cons a l ih =>
    intro s r h
    cases s with
    | nil => simp [litCS] at h
    | cons c cs =>
      simp only [litCS] at h
      by_cases hc : c = a
      · simp [hc] at h
        exact Nat.le_trans (ih cs r h) (by simp)
      · simp [hc] at h

theorem litCI_length : ∀ l s r, litCI l s = some r → r.length ≤ s.length := by
  intro l
  induction l with
  | nil => intro s r h; cases h; simp
  | cons a l ih =>
    intro s r h
    cases s with
    | nil => simp [litCI] at h
    | cons c cs =>
      simp only [litCI] at h
      by_cases hc : ciEq c a
      · simp [hc] at h
        exact Nat.le_trans (ih cs r h) (by simp)
      · simp [hc] at h

theorem noWs_length : ∀ o w r, noWs o = some (w, r) →
    (∃ x, o = some x ∧ w = [] ∧ r = x) := by
  intro o w r h
  cases o with
  | none => simp [noWs] at h
  | some x =>
    simp only [noWs, Option.some.injEq, Prod.mk.injEq] at h
    exact ⟨x, rfl, h.1.symm, h.2.symm⟩

theorem wsLit_length : ∀ s lit w r, wsLit lit s = some (w, r) → r.length ≤ s.length := by
  intro s
  induction s with
  | nil =>
    intro lit w r h
    obtain ⟨x, hx, _, hr⟩ := noWs_length _ _ _ h
    subst hr
    exact litCI_length lit [] r hx
  | cons c cs ih =>
    intro lit w r h
    simp only [wsLit] at h
    by_cases hc : isWs c
    · simp only [hc, if_pos] at h
      cases hw : wsLit lit cs with
      | some p =>
        obtain ⟨w0, r0⟩ := p
        rw [hw] at h
        cases h
        exact Nat.le_trans (ih lit w0 r hw) (by simp)
      | none =>
        rw [hw] at h
        obtain ⟨x, hx, _, hr⟩ := noWs_length _ _ _ h
        subst hr
        exact litCI_length _ _ _ hx
    · simp only [hc, Bool.false_eq_true, if_false] at h
      obtain ⟨x, hx, _, hr⟩ := noWs_length _ _ _ h
      subst hr
      exact litCI_length _ _ _ hx

theorem ws1Lit_length : ∀ s lit w r, ws1Lit lit s = some (w, r) → r.length < s.length := by
  intro s lit w r h
  cases s with
  | nil => simp [ws1Lit] at h
  | cons c cs =>
    simp only [ws1Lit] at h
    by_cases hc : isWs c
    · simp only [hc, if_pos] at h
      cases hw : wsLit lit cs with
      | some p =>
        obtain ⟨w0, r0⟩ := p
        rw [hw] at h
        cases h
        exact Nat.lt_of_le_of_lt (wsLit_length cs lit w0 r hw) (by simp)
      | none => rw [hw] at h; cases h
    · simp [hc] at h

/-- Decimal representation of a natural number. -/
def natStr (n : Nat) : Str := (Nat.repr n).data

/-- Model of `String(n).padStart(2, '0')` for day and month numbers. -/
def pad2 (n : Nat) : Str := if n < 10 then '0' :: natStr n else natStr n

/-- Numeric value of a digit character. -/
def digitVal (c : Char) : Nat := c.toNat - 48

/-- Gregorian leap-year rule, as implemented by the JavaScript `Date`. -/
def isLeap (y : Nat) : Bool := y % 4 = 0 ∧ (y % 100 ≠ 0 ∨ y % 400 = 0)

/-- Number of days of month `m` in year `y`. -/
def daysInMonth (y m : Nat) : Nat :=
  if m = 2 then (if isLeap y then 29 else 28)
  else if m = 4 ∨ m = 6 ∨ m = 9 ∨ m = 11 then 30
  else 31

/-- Model of `new Date(s)` on the canonical date strings this
application stores: an ISO `yyyy-mm-dd` string parses to its
`(year, month, day)` components when they denote a real calendar date;
every other string is modelled as unparsable (`Invalid Date`).  The
local time zone is taken as UTC, so `getDate`/`getMonth`/`getFullYear`
return the parsed components themselves. -/
def parseIsoDate (s : Str) : Option (Nat × Nat × Nat) :=
  match s with
  | [y1, y2, y3, y4, h1, m1, m2, h2, d1, d2] =>
    if h1 = '-' ∧ h2 = '-' ∧ isDigit y1 ∧ isDigit y2 ∧ isDigit y3 ∧ isDigit y4 ∧
        isDigit m1 ∧ isDigit m2 ∧ isDigit d1 ∧ isDigit d2 then
      let y := 1000 * digitVal y1 + 100 * digitVal y2 + 10 * digitVal y3 + digitVal y4
      let m := 10 * digitVal m1 + digitVal m2
      let d := 10 * digitVal d1 + digitVal d2
      if 1 ≤ m ∧ m ≤ 12 ∧ 1 ≤ d ∧ d ≤ daysInMonth y m then some (y, m, d) else none
    else none
  | _ => none

/-- The literal placeholder used throughout the sources. -/
def nd : Str := str "Н/Д"

/-- Embeds `formatDateForProtocol` of `src/unnamed/part_003` lines
30-42 and `src/unnamed/part_004` lines 30-42 (both copies are
identical): empty or placeholder input yields the placeholder, an
unparsable string is returned unchanged, and a parsed date is rendered
as zero-padded `dd.mm.yyyy`. -/
def formatDateForProtocol (s : Str) : Str :=
  if s = [] ∨ s = nd then nd
  else
    match parseIsoDate s with
    | none => s
    | some (y, m, d) => pad2 d ++ '.' :: (pad2 m ++ '.' :: natStr y)

/-- Upstream `decisions` value of uncertain shape: absent, a scalar
string, or an array of strings. -/
inductive UpDecisions
  | absent
  | scalar (s : Str)
  | arr (l : List Str)
deriving DecidableEq

/-- Embeds the `decisions` field of `buildProtocolJson`
(`src/unnamed/part_003` line 61 and `src/unnamed/part_004` line 213):
`Array.isArray(d) ? d : [d || "Н/Д"]` — an array passes through
unchanged (even when empty), and any non-array value is wrapped into a
one-element list with falsy scalars replaced by the placeholder. -/
def normalizeDecisions : UpDecisions → List Str
  | .arr l => l
  | .scalar s => [if s = [] then nd else s]
  | .absent => [nd]

/-- JavaScript nullish coalescing `a ?? b` on optional strings. -/
def coal (a : Option Str) (b : Str) : Str := a.getD b

/-- Upstream payload fields involved in protocol numbering:
`fullProtocol.protocol_number` and `fullProtocol.metadata?.protocol_number`. -/
structure UpPayload where
  protocolNumberField : Option Str
  metaProtocolNumberField : Option Str
deriving DecidableEq

/-- Embeds the `protocol_number` metadata field computed by
`buildProtocolJson` (`src/unnamed/part_003` line 55,
`src/unnamed/part_004` line 207):
`fullProtocol.protocol_number ?? fullProtocol.metadata?.protocol_number ?? "Н/Д"`. -/
def buildProtocolNumber (p : UpPayload) : Str :=
  coal p.protocolNumberField (coal p.metaProtocolNumberField nd)

/-- Embeds the numbering lookup of `handleDownload`
(`src/unnamed/part_003` lines 101-107): the stored-protocol list is
fetched from the external store; on success the number is
`String(existingProtocols.length + 1)`, on failure the placeholder
stays. -/
def protocolNumberFromStore (lookup : Option (List Unit)) : Str :=
  match lookup with
  | some ps => natStr (ps.length + 1)
  | none => nd

/-- Embeds the numbering portion of `handleDownload`
(`src/unnamed/part_003` lines 100-111): `buildProtocolJson` first
produces a metadata number from the payload, and the assignment
`parsed.metadata.protocol_number = protocolNumber` then overwrites it
with the store-derived number, which is what the title renders. -/
def handleDownloadNumber (p : UpPayload) (lookup : Option (List Unit)) : Str :=
  let fromPayload := buildProtocolNumber p
  let protocolNumber := protocolNumberFromStore lookup
  let overwritten := protocolNumber
  let _ := fromPayload
  overwritten

/-- Embeds the numbering portion of `generateDocument`
(`src/unnamed/part_004` lines 300-315): the state value (initially the
placeholder) is refreshed from the store only when it still holds the
placeholder, and then overwrites the payload-derived metadata number. -/
def generateDocumentNumber (stateNumber : Str) (p : UpPayload)
    (lookup : Option (List Unit)) : Str :=
  let currentProtocolNumber :=
    if stateNumber = nd then protocolNumberFromStore lookup else stateNumber
  let fromPayload := buildProtocolNumber p
  let _ := fromPayload
  currentProtocolNumber

/-- Rendered document title (`src/unnamed/part_003` line 183,
`src/unnamed/part_004` line 482). -/
def docTitle (p : UpPayload) (lookup : Option (List Unit)) : Str :=
  str "ПРОТОКОЛ № " ++ handleDownloadNumber p lookup

/-- Participant record (`src/client/src/components/ParticipantsManager.tsx`,
used by `SpeakerMapping.tsx`): `type` is `"permanent"` or `"temporary"`. -/
structure Participant where
  pid : Str
  name : Str
  role : Str
  organization : Str
  permanent : Bool
deriving DecidableEq

/-- Record lookup `mapping[label] || ""` on a speaker mapping kept as
an association list in insertion order (unique keys). -/
def mapGet (m : List (Str × Str)) (k : Str) : Str :=
  match m.find? (fun e => e.1 = k) with
  | some e => e.2
  | none => []

/-- Embeds `allMapped` (`src/client/src/components/SpeakerMapping.tsx`
lines 256-258): there is at least one label and every label's mapped
name is non-blank. -/
def allMapped (labels : List Str) (m : List (Str × Str)) : Bool :=
  decide (labels ≠ []) && labels.all (fun l => jsTrim (mapGet m l) ≠ [])

/-- Error message set when some speaker is unmapped
(`SpeakerMapping.tsx` line 310). -/
def msgAssignAll : Str := str "Назначьте участника для каждого спикера перед генерацией."

/-- Error message set when the roster is empty (`SpeakerMapping.tsx`
line 315). -/
def msgAddParticipant : Str := str "Добавьте хотя бы одного участника перед генерацией."

/-- Embeds the precondition ladder of `onGenerate`
(`SpeakerMapping.tsx` lines 305-318): an unmapped speaker aborts with
the first message, an empty roster aborts with the second, otherwise
the generation request proceeds (`none`). -/
def onGenerateOutcome (labels : List Str) (m : List (Str × Str))
    (participants : List Participant) : Option Str :=
  if ¬ allMapped labels m then some msgAssignAll
  else if participants = [] then some msgAddParticipant
  else none

/-- Does `hay` start with `needle`? -/
def startsW : Str → Str → Bool
  | _, [] => true
  | [], _ :: _ => false
  | c :: cs, n :: ns => c = n && startsW cs ns

/-- Does `needle` occur as a contiguous substring of `hay`? -/
def subStr (hay needle : Str) : Bool :=
  match hay with
  | [] => startsW [] needle
  | _ :: cs => startsW hay needle || subStr cs needle

/-- C4: the protocol number of the assembled document is never taken
from the upstream payload — the title number is identical for any two
payloads, equals the stored-protocol count plus one when the store
lookup succeeds, is the literal placeholder when it fails, and the
`generateDocument` path of part_004 resolves the same number when its
state still holds the placeholder. -/
theorem c4_protocol_number_never_upstream :
    (∀ p q lookup, handleDownloadNumber p lookup = handleDownloadNumber q lookup ∧
      docTitle p lookup = docTitle q lookup) ∧
    (∀ p cnt, handleDownloadNumber p (some cnt) = natStr (cnt.length + 1)) ∧
    (∀ p, handleDownloadNumber p none = nd) ∧
    (∀ p lookup, generateDocumentNumber nd p lookup = handleDownloadNumber p lookup) ∧
    (∀ p lookup, docTitle p lookup = str "ПРОТОКОЛ № " ++ protocolNumberFromStore lookup) := by
  refine ⟨fun p q lookup => ⟨rfl, rfl⟩, fun p cnt => rfl, fun p => rfl,
    fun p lookup => ?_, fun p lookup => rfl⟩
  simp [generateDocumentNumber, handleDownloadNumber]

/-- C5 counterexample: an upstream `decisions` value that is an empty
array is passed through unchanged, so the normalized decisions list is
empty — refuting the claim that no input yields an empty list. -/
theorem c5_empty_array_counterexample :
    normalizeDecisions (UpDecisions.arr []) = [] := rfl

/-- C5 amended: a scalar `decisions` value is wrapped into a
one-element list (the placeholder when falsy), an absent value yields
the one-element placeholder list, and in particular the scenario-C
scalar normalizes to its singleton; but an upstream array — including
the empty array — is passed through unchanged, so only non-array
inputs are guaranteed non-empty. -/
theorem c5_scalar_decisions_wrapped :
    (∀ s, (normalizeDecisions (UpDecisions.scalar s)).length = 1 ∧
      normalizeDecisions (UpDecisions.scalar s) ≠ []) ∧
    normalizeDecisions UpDecisions.absent = [nd] ∧
    (∀ l, normalizeDecisions (UpDecisions.arr l) = l) ∧
    normalizeDecisions (UpDecisions.scalar (str "Approved budget")) = [str "Approved budget"] := by
  refine ⟨fun s => ?_, rfl, fun l => rfl, by decide⟩
  by_cases h : s = [] <;> simp [normalizeDecisions, h]

/-- C6 counterexample: with the single extracted label `Спикер A`
unmapped and a non-empty roster, generation is blocked, but the
surfaced message is the fixed generic sentence and does not contain
the unmapped label — refuting the claim that the error names the
specific unmapped labels. -/
theorem c6_generic_message_counterexample :
    onGenerateOutcome [str "Спикер A"] []
        [⟨str "1", str "Иван Петров", [], [], true⟩] = some msgAssignAll ∧
    subStr msgAssignAll (str "Спикер A") = false := by
  constructor
  · rfl
  · decide

/-- C6 amended: whenever some extracted label is unmapped (or no label
exists), generation does not proceed and the fixed generic message is
surfaced (it does not name the unmapped labels); the empty-roster
failure is a separate check with its own distinct message. -/
theorem c6_unmapped_blocks_generation :
    (∀ labels m ps, allMapped labels m = false →
      onGenerateOutcome labels m ps = some msgAssignAll) ∧
    (∀ labels m ps, allMapped labels m = true → ps = [] →
      onGenerateOutcome labels m ps = some msgAddParticipant) ∧
    msgAssignAll ≠ msgAddParticipant := by
  refine ⟨fun labels m ps h => ?_, fun labels m ps h hps => ?_, by decide⟩
  · simp [onGenerateOutcome, h]
  · simp [onGenerateOutcome, h, hps]

/-- C6 witness: both precondition failures observed on concrete
states through the theorem. -/
theorem c6_unmapped_blocks_generation_witness :
    onGenerateOutcome [str "Спикер B"] [] [] = some msgAssignAll ∧
    onGenerateOutcome [str "Спикер B"] [(str "Спикер B", str "Иван")] [] =
      some msgAddParticipant := by
  exact ⟨c6_unmapped_blocks_generation.1 _ _ _ (by decide),
    c6_unmapped_blocks_generation.2.1 _ _ _ (by decide) rfl⟩

/-- C7 counterexample: a non-empty date string that does not parse is
returned verbatim, not as the placeholder — refuting the claim that
unparsable values render as the literal placeholder. -/
theorem c7_unparsable_returns_input :
    formatDateForProtocol (str "hello") = str "hello" ∧ str "hello" ≠ nd := by
  constructor
  · decide
  · decide

/-- C7 amended: an absent date (empty or already the placeholder)
renders as the placeholder; a parseable date renders as zero-padded
`dd.mm.yyyy`; an unparsable non-empty value is returned unchanged
(never dropped, but also not replaced by the placeholder). -/
theorem c7_date_rendering :
    (∀ s, s = [] ∨ s = nd → formatDateForProtocol s = nd) ∧
    (∀ s, s ≠ [] → s ≠ nd → parseIsoDate s = none → formatDateForProtocol s = s) ∧
    (∀ s y m d, s ≠ [] → s ≠ nd → parseIsoDate s = some (y, m, d) →
      formatDateForProtocol s = pad2 d ++ '.' :: (pad2 m ++ '.' :: natStr y)) ∧
    formatDateForProtocol (str "2025-11-23") = str "23.11.2025" := by
  refine ⟨fun s h => ?_, fun s h1 h2 h3 => ?_, fun s y m d h1 h2 h3 => ?_, by decide⟩
  · simp [formatDateForProtocol, h]
  · simp [formatDateForProtocol, h1, h2, h3]
  · simp [formatDateForProtocol, h1, h2, h3]

/-- C7 witness: the theorem applied to a concrete parseable date and a
concrete out-of-range date. -/
theorem c7_date_rendering_witness :
    formatDateForProtocol (str "2024-02-29") = str "29.02.2024" ∧
    formatDateForProtocol (str "2025-13-45") = str "2025-13-45" := by
  exact ⟨c7_date_rendering.2.2.1 (str "2024-02-29") 2024 2 29 (by decide) (by decide) (by decide),
    c7_date_rendering.2.1 (str "2025-13-45") (by decide) (by decide) (by decide)⟩

/-- Embeds the roster part of `handleDelete` (`SpeakerMapping.tsx`
line 127): remove every participant with the given id. -/
def handleDeleteRoster (ps : List Participant) (pid0 : Str) : List Participant :=
  ps.filter (fun p => p.pid ≠ pid0)

/-- Embeds the mapping part of `handleDelete` (`SpeakerMapping.tsx`
lines 130-140): look up the deleted participant (first match by id)
and drop every mapping entry whose target equals that participant's
name; when the id is unknown the mapping is unchanged. -/
def handleDeleteMapping (ps : List Participant) (m : List (Str × Str))
    (pid0 : Str) : List (Str × Str) :=
  match ps.find? (fun p => p.pid = pid0) with
  | some del => m.filter (fun kv => kv.2 ≠ del.name)
  | none => m

/-- Embeds the mapping-consistency effect (`SpeakerMapping.tsx` lines
239-252) that runs whenever the participant list changes: every entry
whose non-empty target is not the name of a current participant is
deleted. -/
def cleanupMapping (ps : List Participant) (m : List (Str × Str)) : List (Str × Str) :=
  m.filter (fun kv => decide (kv.2 = []) || (ps.find? (fun p => p.name = kv.2)).isSome)

/-- One operation of the participant editor: `handleSave` in add mode
(append, `SpeakerMapping.tsx` line 117), `handleSave` in edit mode
(field update by id, lines 106-110), or `handleDelete`. -/
inductive RosterOp
  | add (p : Participant)
  | edit (eid : Str) (name role org : Str) (perm : Bool)
  | del (pid0 : Str)

/-- Effect of one roster operation on the component state
`(participants, mapping)`, including the consistency effect that React
runs after the roster state changes. -/
def applyRosterOp (st : List Participant × List (Str × Str)) (op : RosterOp) :
    List Participant × List (Str × Str) :=
  match op with
  | .add p =>
    let ps := st.1 ++ [p]
    (ps, cleanupMapping ps st.2)
  | .edit eid n r o t =>
    let ps := st.1.map (fun p => if p.pid = eid then
      { p with name := n, role := r, organization := o, permanent := t } else p)
    (ps, cleanupMapping ps st.2)
  | .del pid0 =>
    let ps := handleDeleteRoster st.1 pid0
    (ps, cleanupMapping ps (handleDeleteMapping st.1 st.2 pid0))

/-- The C10 invariant: every non-empty mapping target names a
participant of the current roster. -/
def mappingSound (ps : List Participant) (m : List (Str × Str)) : Prop :=
  ∀ kv ∈ m, kv.2 ≠ [] → ∃ p ∈ ps, p.name = kv.2

/-- C10: after every roster operation the speaker mapping never
dangles — the consistency pass alone establishes the invariant for any
roster, hence it holds after add, edit and delete; and deleting a
participant moreover removes every mapping entry whose target is the
deleted participant's name. -/
theorem c10_mapping_never_dangles :
    (∀ ps m, mappingSound ps (cleanupMapping ps m)) ∧
    (∀ st op, mappingSound (applyRosterOp st op).1 (applyRosterOp st op).2) ∧
    (∀ ps m pid0 del, ps.find? (fun p => p.pid = pid0) = some del →
      ∀ kv ∈ handleDeleteMapping ps m pid0, kv.2 ≠ del.name) := by
  have hclean : ∀ ps m, mappingSound ps (cleanupMapping ps m) := by
    intro ps m kv hkv hne
    simp only [cleanupMapping, List.mem_filter] at hkv
    rcases hkv with ⟨_, hp⟩
    rcases Bool.or_eq_true_iff.mp hp with h | h
    · exact absurd (of_decide_eq_true h) hne
    · rw [List.find?_isSome] at h
      rcases h with ⟨p, hmem, hpa⟩
      simp only [decide_eq_true_eq] at hpa
      exact ⟨p, hmem, hpa⟩
  refine ⟨hclean, fun st op => ?_, fun ps m pid0 del hdel kv hkv => ?_⟩
  · cases op <;> exact hclean _ _
  · simp only [handleDeleteMapping, hdel, List.mem_filter] at hkv
    exact of_decide_eq_true hkv.2

/-- C10 witness: on a concrete state, the invariant produced by the
consistency pass is inhabited at an actual surviving entry, and the
delete handler has removed the deleted participant's entries. -/
theorem c10_mapping_never_dangles_witness :
    (∃ p ∈ [(⟨str "1", str "Иван", [], [], true⟩ : Participant)], p.name = str "Иван") ∧
    ((str "Спикер B", str "Пётр") ∉ handleDeleteMapping
      [⟨str "1", str "Иван", [], [], true⟩, ⟨str "2", str "Пётр", [], [], false⟩]
      [(str "Спикер A", str "Иван"), (str "Спикер B", str "Пётр")] (str "2")) := by
  constructor
  · exact c10_mapping_never_dangles.1
      [⟨str "1", str "Иван", [], [], true⟩]
      [(str "Спикер A", str "Иван"), (str "Спикер B", str "Пётр")]
      (str "Спикер A", str "Иван") (by decide) (by decide)
  · intro hmem
    exact c10_mapping_never_dangles.2.2
      [⟨str "1", str "Иван", [], [], true⟩, ⟨str "2", str "Пётр", [], [], false⟩]
      [(str "Спикер A", str "Иван"), (str "Спикер B", str "Пётр")] (str "2")
      ⟨str "2", str "Пётр", [], [], false⟩ (by decide)
      (str "Спикер B", str "Пётр") hmem rfl

/-- Diarization segment: the speaker identifier may sit under any of
the four alternative field names probed by `speakerLabels`
(`SpeakerMapping.tsx` line 162).  Values are modelled as strings. -/
structure Segment where
  speaker : Option Str
  spk : Option Str
  label : Option Str
  speaker_label : Option Str
deriving DecidableEq

/-- Diarization payload: the segment list may sit under any of the
three alternative keys probed at `SpeakerMapping.tsx` line 154. -/
structure Diar where
  utterances : Option (List Segment)
  segments : Option (List Segment)
  diarization : Option (List Segment)
deriving DecidableEq

/-- JavaScript `a || b` on possibly-absent strings: an absent or empty
left operand falls through to the right one. -/
def jsOr (a b : Option Str) : Option Str :=
  match a with
  | some v => if v = [] then b else some v
  | none => b

/-- The field-priority chain `seg.speaker || seg.spk || seg.label ||
seg.speaker_label` (`SpeakerMapping.tsx` line 162). -/
def segSpeaker (s : Segment) : Option Str :=
  jsOr s.speaker (jsOr s.spk (jsOr s.label s.speaker_label))

/-- The chain `diarization?.utterances || diarization?.segments ||
diarization?.diarization || []` (`SpeakerMapping.tsx` line 154);
arrays are truthy in JavaScript even when empty, so the first present
list wins. -/
def firstSegList (d : Option Diar) : List Segment :=
  match d with
  | none => []
  | some dd =>
    match dd.utterances with
    | some l => l
    | none =>
      match dd.segments with
      | some l => l
      | none =>
        match dd.diarization with
        | some l => l
        | none => []

/-- The test `/^[A-Z0-9]+$/.test(s)` — case-sensitive, since the
regex carries no `i` flag (`SpeakerMapping.tsx` lines 167 and 187). -/
def upperAlnumTest (s : Str) : Bool := decide (s ≠ []) && s.all isUpperAlnum

/-- Tier 1 of the extractor (`SpeakerMapping.tsx` lines 159-174): for
every segment take the first present identifier field, trim it, and
normalize uppercase-alphanumeric tokens to `Спикер <token>`, keeping
everything else verbatim. -/
def tier1Labels (d : Option Diar) : List Str :=
  (firstSegList d).filterMap (fun seg =>
    match segSpeaker seg with
    | some v =>
      let speakerId := jsTrim v
      some (if upperAlnumTest speakerId then str "Спикер " ++ speakerId else speakerId)
    | none => none)

/-- Matcher for `\d{2}:\d{2}`. -/
def timePair : Str → Option (Str × Str)
  | a :: b :: c :: d :: e :: r =>
    if isDigit a ∧ isDigit b ∧ c = ':' ∧ isDigit d ∧ isDigit e then
      some ([a, b, c, d, e], r)
    else none
  | _ => none

/-- Matcher for the timestamp bracket `\[\d{2}:\d{2}\s*-\s*\d{2}:\d{2}\]`,
returning the consumed text and the rest.  The greedy `\s*` runs are
exact maximal munches because `-` and `]` are not whitespace. -/
def matchTsCore : Str → Option (Str × Str)
  | '[' :: r0 =>
    match timePair r0 with
    | some (t1, r1) =>
      let w1 := r1.takeWhile isWs
      match r1.dropWhile isWs with
      | '-' :: r3 =>
        let w2 := r3.takeWhile isWs
        match timePair (r3.dropWhile isWs) with
        | some (t2, r5) =>
          match r5 with
          | ']' :: r6 => some ('[' :: (t1 ++ w1 ++ '-' :: (w2 ++ t2 ++ [']'])), r6)
          | _ => none
        | none => none
      | _ => none
    | none => none
  | _ => none

/-- The alternation `(?:Спикер\s+([A-Z0-9]+)|([^:]+)):` of the tier-2
regex (`SpeakerMapping.tsx` line 180), case-sensitive, attempted at a
fixed position: alternative 1 first, then the catch-all group.
Returns whether the identifier group matched, the captured text, and
the rest after the colon. -/
def altDesign (s : Str) : Option (Bool × Str × Str) :=
  match litCS (str "Спикер") s with
  | some r1 =>
    let w := r1.takeWhile isWs
    let r2 := r1.dropWhile isWs
    let idRun := r2.takeWhile isUpperAlnum
    let r3 := r2.dropWhile isUpperAlnum
    if w ≠ [] ∧ idRun ≠ [] then
      match r3 with
      | ':' :: rest => some (true, idRun, rest)
      | _ => altDesignRaw s
    else altDesignRaw s
  | none => altDesignRaw s
where
  /-- Alternative 2: `([^:]+):`. -/
  altDesignRaw (s : Str) : Option (Bool × Str × Str) :=
    let run := s.takeWhile (fun c => c ≠ ':')
    match s.dropWhile (fun c => c ≠ ':') with
    | ':' :: rest => if run ≠ [] then some (false, run, rest) else none
    | _ => none

/-- Greedy `\s*` in front of the alternation, with engine backtracking:
the longest whitespace run after which the alternation matches wins,
and on failure the run is shortened (letting the catch-all group start
inside the whitespace). -/
def wsAltDesign : Str → Option (Bool × Str × Str)
  | [] => altDesign []
  | c :: cs =>
    if isWs c then
      match wsAltDesign cs with
      | some x => some x
      | none => altDesign (c :: cs)
    else altDesign (c :: cs)

/-- One attempt of the full tier-2 pattern at a fixed position. -/
def tier2At (s : Str) : Option ((Bool × Str) × Str) :=
  match matchTsCore s with
  | some (_, r0) =>
    match wsAltDesign r0 with
    | some (b, cap, rest) => some ((b, cap), rest)
    | none => none
  | none => none

theorem timePair_length : ∀ s t r, timePair s = some (t, r) → r.length + 5 = s.length := by
  intro s t r h
  match s with
  | [] => simp [timePair] at h
  | [a] => simp [timePair] at h
  | [a, b] => simp [timePair] at h
  | [a, b, c] => simp [timePair] at h
  | [a, b, c, d] => simp [timePair] at h
  | a :: b :: c :: d :: e :: s' =>
    simp only [timePair] at h
    split at h
    · cases h; simp
    · cases h

theorem matchTsCore_length : ∀ s m r, matchTsCore s = some (m, r) → r.length < s.length := by
  intro s m r h
  unfold matchTsCore at h
  split at h
  case h_2 => cases h
  case h_1 s' r0 =>
  cases h1 : timePair r0 with
  | none => rw [h1] at h; cases h
  | some p1 =>
    obtain ⟨t1, r1⟩ := p1
    rw [h1] at h
    simp only at h
    split at h
    case h_2 => cases h
    case h_1 c3 r3 heq2 =>
    cases h4 : timePair (r3.dropWhile isWs) with
    | none => rw [h4] at h; cases h
    | some p4 =>
      obtain ⟨t2, r5⟩ := p4
      rw [h4] at h
      simp only at h
      split at h
      case h_2 => cases h
      case h_1 r6 heq5 =>
      cases h
      have e1 := timePair_length r0 t1 r1 h1
      have e2 : (r1.dropWhile isWs).length ≤ r1.length :=
        (List.dropWhile_sublist _).length_le
      rw [heq2] at e2
      have e3 : (r3.dropWhile isWs).length ≤ r3.length :=
        (List.dropWhile_sublist _).length_le
      have e4 := timePair_length _ t2 _ h4
      simp only [List.length_cons] at e2 e4 ⊢
      omega

theorem dropWhile_cons_length {p : Char → Bool} {l rest : Str} {c : Char}
    (h : l.dropWhile p = c :: rest) : rest.length < l.length := by
  have := (List.dropWhile_sublist (l := l) p).length_le
  rw [h] at this
  simp only [List.length_cons] at this
  omega

theorem altDesign_length : ∀ s b cap rest, altDesign s = some (b, cap, rest) →
    rest.length < s.length := by
  have raw : ∀ s b cap rest, altDesign.altDesignRaw s = some (b, cap, rest) →
      rest.length < s.length := by
    intro s b cap rest h
    simp only [altDesign.altDesignRaw] at h
    split at h
    case h_1 r heq =>
      split at h
      · cases h; exact dropWhile_cons_length heq
      · cases h
    case h_2 => cases h
  intro s b cap rest h
  simp only [altDesign] at h
  split at h
  case h_2 => exact raw s b cap rest h
  case h_1 r1 heq1 =>
    split at h
    · split at h
      case h_1 rest0 heq3 =>
        cases h
        have e1 : rest.length < (r1.dropWhile isWs).length :=
          dropWhile_cons_length (p := isUpperAlnum) heq3
        have e3 : (r1.dropWhile isWs).length ≤ r1.length :=
          (List.dropWhile_sublist _).length_le
        have e4 : r1.length ≤ s.length := litCS_length _ _ _ heq1
        omega
      case h_2 => exact raw s b cap rest h
    · exact raw s b cap rest h

theorem wsAltDesign_length : ∀ s b cap rest, wsAltDesign s = some (b, cap, rest) →
    rest.length < s.length := by
  intro s
  induction s with
  | nil => exact fun b cap rest h => altDesign_length [] b cap rest h
  | cons c cs ih =>
    intro b cap rest h
    simp only [wsAltDesign] at h
    by_cases hc : isWs c
    · simp only [hc, if_pos] at h
      cases hw : wsAltDesign cs with
      | some x =>
        obtain ⟨b0, cap0, rest0⟩ := x
        rw [hw] at h
        cases h
        exact Nat.lt_trans (ih _ _ _ hw) (by simp)
      | none =>
        rw [hw] at h
        exact altDesign_length _ b cap rest h
    · simp only [hc, Bool.false_eq_true, if_false] at h
      exact altDesign_length _ b cap rest h

theorem tier2At_length : ∀ s cap rest, tier2At s = some (cap, rest) →
    rest.length < s.length := by
  intro s cap rest h
  simp only [tier2At] at h
  split at h
  case h_2 => cases h
  case h_1 m r0 heq =>
    split at h
    case h_2 => cases h
    case h_1 b c r heq2 =>
      cases h
      exact Nat.lt_trans (wsAltDesign_length _ _ _ _ heq2) (matchTsCore_length _ _ _ heq)

/-- Fuel-driven body of the global regex scan; the fuel only bounds
the recursion depth and never runs out when initialised to
`length + 1`, because every match consumes at least one character (a
hypothetical empty match advances one position, as a JavaScript engine
does). -/
def scanFuel {α : Type} (f : Str → Option (α × Str)) : Nat → Str → List α
  | 0, _ => []
  | _ + 1, [] =>
    match f [] with
    | some (m, _) => [m]
    | none => []
  | fuel + 1, c :: cs =>
    match f (c :: cs) with
    | some (m, rest) =>
      m :: scanFuel f fuel (if rest.length < cs.length + 1 then rest else cs)
    | none => scanFuel f fuel cs

/-- Global regex scanning (`matchAll` / repeated `exec`): attempt the
pattern at every position from left to right, and after a match resume
immediately after it. -/
def scanAll {α : Type} (f : Str → Option (α × Str)) (s : Str) : List α :=
  scanFuel f (s.length + 1) s

theorem scanFuel_fuel_congr {α : Type} (f : Str → Option (α × Str)) :
    ∀ f1 f2 s, s.length < f1 → s.length < f2 →
      scanFuel f f1 s = scanFuel f f2 s := by
  intro f1
  induction f1 with
  | zero => intro f2 s h1 _; omega
  | succ n ih =>
    intro f2 s h1 h2
    cases f2 with
    | zero => omega
    | succ m =>
      cases s with
      | nil => rfl
      | cons c cs =>
        simp only [scanFuel]
        cases hf : f (c :: cs) with
        | none =>
          exact ih m cs (by simp at h1; omega) (by simp at h2; omega)
        | some p =>
          obtain ⟨v, rest⟩ := p
          simp only
          by_cases hr : rest.length < cs.length + 1
          · rw [if_pos hr]
            exact congrArg (v :: ·)
              (ih m rest (by simp at h1; omega) (by simp at h2; omega))
          · rw [if_neg hr]
            exact congrArg (v :: ·)
              (ih m cs (by simp at h1; omega) (by simp at h2; omega))

theorem scanAll_cons_none {α : Type} (f : Str → Option (α × Str)) (c : Char)
    (cs : Str) (h : f (c :: cs) = none) : scanAll f (c :: cs) = scanAll f cs := by
  unfold scanAll
  simp only [List.length_cons, scanFuel, h]

theorem scanAll_cons_some {α : Type} (f : Str → Option (α × Str)) (c : Char)
    (cs : Str) (v : α) (rest : Str) (h : f (c :: cs) = some (v, rest))
    (hlen : rest.length ≤ cs.length) :
    scanAll f (c :: cs) = v :: scanAll f rest := by
  unfold scanAll
  simp only [List.length_cons, scanFuel, h]
  rw [if_pos (show rest.length < cs.length + 1 by omega)]
  exact congrArg (v :: ·) (scanFuel_fuel_congr f _ _ rest (by omega) (by omega))

/-- Tier 2 of the extractor (`SpeakerMapping.tsx` lines 177-198): scan
the transcript with the timestamp-designation regex and normalize each
captured designation exactly as the code does (`match[3] || match[4]`,
then the case-sensitive `^[A-Z0-9]+$` test on the trimmed text). -/
def tier2Labels (t : Str) : List Str :=
  (scanAll tier2At t).map (fun cap =>
    let tg := jsTrim cap.2
    if upperAlnumTest tg then str "Спикер " ++ tg else tg)

/-- One attempt of a tier-3 word pattern `<word>\s+([A-Z0-9]+)` with
the `gi` flags (`SpeakerMapping.tsx` lines 204-205): case-insensitive
word, at least one whitespace character, then a case-insensitive
alphanumeric run.  The returned text is `match[0]`, the original
characters consumed. -/
def scanWordAt (word : Str) (s : Str) : Option (Str × Str) :=
  match litCI word s with
  | some r1 =>
    let w := r1.takeWhile isWs
    let r2 := r1.dropWhile isWs
    let idRun := r2.takeWhile isAlnumCI
    let r3 := r2.dropWhile isAlnumCI
    if w ≠ [] ∧ idRun ≠ [] then some (s.take (s.length - r3.length), r3) else none
  | none => none

/-- One attempt of the tier-3 pattern `SPEAKER_(\d{2})` with the `gi`
flags (`SpeakerMapping.tsx` line 206). -/
def scanUnderAt (s : Str) : Option (Str × Str) :=
  match litCI (str "SPEAKER_") s with
  | some r1 =>
    match r1 with
    | a :: b :: r2 =>
      if isDigit a ∧ isDigit b then some (s.take (s.length - r2.length), r2) else none
    | _ => none
  | none => none

/-- Tier 3 of the extractor (`SpeakerMapping.tsx` lines 201-216): all
three simple patterns are scanned over the transcript, and each
`match[0].trim()` is added verbatim — no `Спикер <token>`
normalization happens in this tier. -/
def tier3Labels (t : Str) : List Str :=
  (scanAll (scanWordAt (str "Спикер")) t).map jsTrim ++
  (scanAll (scanWordAt (str "Speaker")) t).map jsTrim ++
  (scanAll scanUnderAt t).map jsTrim

/-- Insertion into the label `Set`: keeps the first occurrence,
preserving insertion order. -/
def addLabel (acc : List Str) (l : Str) : List Str :=
  if l ∈ acc then acc else acc ++ [l]

/-- Sequential `Set.add` of a stream of labels. -/
def addAll (acc : List Str) (ls : List Str) : List Str := ls.foldl addLabel acc

/-- Strict code-point lexicographic comparison — the order in which the
default JavaScript `Array.prototype.sort` arranges distinct strings
(code units and code points agree on the basic-plane characters this
application produces). -/
def lexLt : Str → Str → Bool
  | [], [] => false
  | [], _ :: _ => true
  | _ :: _, [] => false
  | a :: as, b :: bs => if a < b then true else if b < a then false else lexLt as bs

/-- The associated total order used to state sortedness. -/
def labelLe (a b : Str) : Prop := lexLt b a = false

instance : DecidableRel labelLe :=
  fun a b => inferInstanceAs (Decidable (lexLt b a = false))

theorem lexLt_asymm : ∀ a b, lexLt a b = true → lexLt b a = false := by
  intro a
  induction a with
  | nil => intro b h; cases b <;> simp [lexLt]
  | cons x xs ih =>
    intro b h
    cases b with
    | nil => simp [lexLt] at h
    | cons y ys =>
      simp only [lexLt] at h ⊢
      rcases lt_trichotomy x y with hl | he | hg
      · simp [hl, not_lt_of_gt hl, ne_of_gt hl]
      · subst he
        simp only [lt_irrefl, if_false] at h ⊢
        exact ih ys h
      · simp [hg, not_lt_of_gt hg] at h

theorem lexLt_trichot : ∀ a b, lexLt a b = true ∨ lexLt b a = true ∨ a = b := by
  intro a
  induction a with
  | nil => intro b; cases b <;> simp [lexLt]
  | cons x xs ih =>
    intro b
    cases b with
    | nil => simp [lexLt]
    | cons y ys =>
      simp only [lexLt]
      rcases lt_trichotomy x y with hl | he | hg
      · left; simp [hl]
      · subst he
        simp only [lt_irrefl, if_false]
        rcases ih ys with h | h | h
        · left; exact h
        · right; left; exact h
        · right; right; rw [h]
      · right; left; simp [hg]

theorem lexLt_trans : ∀ a b c, lexLt a b = true → lexLt b c = true → lexLt a c = true := by
  intro a
  induction a with
  | nil =>
    intro b c hab hbc
    cases b with
    | nil => simp [lexLt] at hab
    | cons y ys =>
      cases c with
      | nil => simp [lexLt] at hbc
      | cons z zs => simp [lexLt]
  | cons x xs ih =>
    intro b c hab hbc
    cases b with
    | nil => simp [lexLt] at hab
    | cons y ys =>
      cases c with
      | nil => simp [lexLt] at hbc
      | cons z zs =>
        simp only [lexLt] at hab hbc ⊢
        rcases lt_trichotomy x y with h1 | h1 | h1
        · rcases lt_trichotomy y z with h2 | h2 | h2
          · simp [lt_trans h1 h2]
          · subst h2; simp [h1]
          · simp [h2, not_lt_of_gt h2] at hbc
        · subst h1
          rcases lt_trichotomy x z with h2 | h2 | h2
          · simp [h2]
          · subst h2
            simp only [lt_irrefl, if_false] at hab hbc ⊢
            exact ih ys zs hab hbc
          · simp [h2, not_lt_of_gt h2] at hbc
        · simp [h1, not_lt_of_gt h1] at hab

instance : IsTotal Str labelLe := by
  constructor
  intro a b
  by_cases h : lexLt b a = false
  · exact Or.inl h
  · right
    have ht : lexLt b a = true := by
      cases hv : lexLt b a
      · exact absurd hv h
      · rfl
    exact lexLt_asymm b a ht

instance : IsTrans Str labelLe := by
  constructor
  intro a b c hab hbc
  unfold labelLe at *
  cases hv : lexLt c a
  · rfl
  · exfalso
    rcases lexLt_trichot c b with h | h | h
    · rw [hbc] at h; cases h
    · have := lexLt_trans b c a h hv
      rw [hab] at this; cases this
    · subst h
      rw [hab] at hv; cases hv

/-- One `labels.size === 0` fallback step of the extractor: a later
tier is scanned only when the accumulated set is still empty. -/
def stage (s : List Str) (xs : List Str) : List Str :=
  if s = [] then addAll s xs else s

/-- The label set accumulated by the tier cascade of `speakerLabels`
(`SpeakerMapping.tsx` lines 153-222), in insertion order. -/
def collectedLabels (d : Option Diar) (t : Str) : List Str :=
  stage (stage (stage (addAll [] (tier1Labels d)) (tier2Labels t)) (tier3Labels t))
    [str "Спикер A", str "Спикер B"]

/-- Embeds `speakerLabels` (`SpeakerMapping.tsx` lines 147-227): the
tier cascade feeding a deduplicating `Set`, the two-element fallback,
and the final `Array.from(labels).sort()` (default code-unit
comparator; the set elements are distinct, so the sorted permutation
is unique and insertion sort computes it). -/
def speakerLabels (d : Option Diar) (t : Str) : List Str :=
  List.insertionSort labelLe (collectedLabels d t)

theorem addLabel_ne_nil (acc : List Str) (l : Str) : addLabel acc l ≠ [] := by
  unfold addLabel
  split
  · exact List.ne_nil_of_mem ‹l ∈ acc›
  · simp

theorem addAll_ne_nil : ∀ (ls acc : List Str), acc ≠ [] → addAll acc ls ≠ [] := by
  intro ls
  induction ls with
  | nil => intro acc h; exact h
  | cons x xs ih =>
    intro acc _
    exact ih (addLabel acc x) (addLabel_ne_nil acc x)

theorem addLabel_nodup (acc : List Str) (l : Str) (h : acc.Nodup) :
    (addLabel acc l).Nodup := by
  unfold addLabel
  split
  · exact h
  · rename_i hnm
    simp only [List.nodup_append, List.nodup_cons, List.not_mem_nil,
      not_false_iff, List.nodup_nil, and_true, true_and]
    refine ⟨h, ?_⟩
    intro a ha hb
    rw [List.mem_singleton] at hb
    subst hb
    exact hnm ha

theorem addAll_nodup : ∀ (ls acc : List Str), acc.Nodup → (addAll acc ls).Nodup := by
  intro ls
  induction ls with
  | nil => intro acc h; exact h
  | cons x xs ih => intro acc h; exact ih _ (addLabel_nodup acc x h)

theorem stage_nodup (s xs : List Str) (h : s.Nodup) : (stage s xs).Nodup := by
  unfold stage
  split
  · exact addAll_nodup xs s h
  · exact h

theorem addAll_cons_ne_nil (acc : List Str) (x : Str) (ls : List Str) :
    addAll acc (x :: ls) ≠ [] := by
  show addAll (addLabel acc x) ls ≠ []
  exact addAll_ne_nil ls _ (addLabel_ne_nil acc x)

theorem collectedLabels_ne_nil (d : Option Diar) (t : Str) :
    collectedLabels d t ≠ [] := by
  unfold collectedLabels
  generalize stage (stage (addAll [] (tier1Labels d)) (tier2Labels t)) (tier3Labels t) = s3
  unfold stage
  split
  · exact addAll_cons_ne_nil _ _ _
  · assumption

theorem collectedLabels_nodup (d : Option Diar) (t : Str) :
    (collectedLabels d t).Nodup := by
  unfold collectedLabels
  exact stage_nodup _ _ (stage_nodup _ _ (stage_nodup _ _
    (addAll_nodup _ _ List.nodup_nil)))

/-- C2: for every diarization payload and every transcript, the
extracted label list is non-empty, sorted in the code-point
lexicographic order of the default `sort()`, and free of duplicates;
and when every scan tier finds nothing, the extractor returns exactly
the fixed two-element fallback pair. -/
theorem c2_labels_nonempty_sorted_dedup (d : Option Diar) (t : Str) :
    (speakerLabels d t ≠ [] ∧
     (speakerLabels d t).Sorted labelLe ∧
     (speakerLabels d t).Nodup) ∧
    (tier1Labels d = [] → tier2Labels t = [] → tier3Labels t = [] →
      speakerLabels d t = [str "Спикер A", str "Спикер B"]) := by
  constructor
  · have hperm := List.perm_insertionSort labelLe (collectedLabels d t)
    refine ⟨?_, List.sorted_insertionSort labelLe _, hperm.nodup_iff.mpr
      (collectedLabels_nodup d t)⟩
    intro he
    unfold speakerLabels at he
    have := hperm.length_eq
    rw [he] at this
    exact collectedLabels_ne_nil d t (List.eq_nil_of_length_eq_zero this.symm)
  · intro h1 h2 h3
    unfold speakerLabels collectedLabels
    rw [h1, h2, h3]
    decide

/-- Witness for the C2 fallback conjunct: with no diarization payload
and an empty transcript every tier is empty and the extractor returns
the fixed pair. -/
theorem c2_labels_nonempty_sorted_dedup_witness :
    speakerLabels none [] = [str "Спикер A", str "Спикер B"] :=
  (c2_labels_nonempty_sorted_dedup none []).2 (by decide) (by decide) (by decide)

/-- Segment carrying only a `speaker` field. -/
def segOf (v : Str) : Segment := ⟨some v, none, none, none⟩

/-- Diarization payload with a `segments` list built from identifiers. -/
def diarOf (vs : List Str) : Option Diar := some ⟨none, some (vs.map segOf), none⟩

/-- C3 counterexample: the `^[A-Z0-9]+$` test is case-sensitive, so
the same underlying identifier in two letter cases yields two
different labels — the uppercase `A` is normalized to `Спикер A`
while the lowercase `a` is kept verbatim. -/
theorem c3_case_sensitivity_counterexample :
    speakerLabels (diarOf [str "A", str "a"]) [] = [str "a", str "Спикер A"] ∧
    upperAlnumTest (str "A") = true ∧
    upperAlnumTest (str "a") = false ∧
    ciEq 'a' 'A' = true := by
  refine ⟨by decide, by decide, by decide, by decide⟩

/-- C3 amended: identifier matching against `^[A-Z0-9]+$` is
case-sensitive in the diarization tier (an uppercase token is
normalized to `Спикер <token>`, any other identifier is kept
verbatim), and the tier-3 simple patterns match case-insensitively but
add the matched text verbatim without normalization — so the same
underlying identifier can surface as different labels across cases and
tiers. -/
theorem c3_case_sensitive_normalization :
    (∀ x : Str, x ≠ [] → x.all isUpperAlnum = true → jsTrim x = x →
      speakerLabels (diarOf [x]) [] = [str "Спикер " ++ x]) ∧
    (∀ y : Str, y ≠ [] → jsTrim y = y → y.all isUpperAlnum = false →
      speakerLabels (diarOf [y]) [] = [y]) ∧
    speakerLabels none (str "спикер a") = [str "спикер a"] ∧
    speakerLabels none (str "Спикер A") = [str "Спикер A"] := by
  have singleLab : ∀ (d : Option Diar) (t : Str) (l : Str),
      tier1Labels d = [l] → speakerLabels d t = [l] := by
    intro d t l h
    unfold speakerLabels collectedLabels
    rw [h]
    have h1 : addAll [] [l] = [l] := by
      simp [addAll, addLabel]
    rw [h1]
    have hs : ∀ xs, stage [l] xs = [l] := by
      intro xs
      simp [stage]
    rw [hs, hs, hs]
    simp [List.insertionSort]
  have single : ∀ v : Str, v ≠ [] →
      tier1Labels (diarOf [v]) =
        [if upperAlnumTest (jsTrim v) then str "Спикер " ++ jsTrim v else jsTrim v] := by
    intro v hv
    simp [tier1Labels, diarOf, segOf, firstSegList, segSpeaker, jsOr, hv]
  refine ⟨fun x hx hall htrim => ?_, fun y hy htrim hall => ?_, by decide, by decide⟩
  · have ht : upperAlnumTest (jsTrim x) = true := by
      rw [htrim]
      simp [upperAlnumTest, hx, hall]
    refine singleLab _ _ _ ?_
    rw [single x hx, ht, htrim]
    simp
  · have ht : upperAlnumTest (jsTrim y) = false := by
      rw [htrim]
      simp [upperAlnumTest, hall]
    refine singleLab _ _ _ ?_
    rw [single y hy, ht, htrim]
    simp

/-- C3 witness: the amended theorem applied to the concrete uppercase
identifier `AB` and the concrete lowercase identifier `ab`. -/
theorem c3_case_sensitive_normalization_witness :
    speakerLabels (diarOf [str "AB"]) [] = [str "Спикер AB"] ∧
    speakerLabels (diarOf [str "ab"]) [] = [str "ab"] := by
  exact ⟨c3_case_sensitive_normalization.1 (str "AB") (by decide) (by decide) (by decide),
    c3_case_sensitive_normalization.2.1 (str "ab") (by decide) (by decide) (by decide)⟩

/-- Content block produced by the markdown formatter
(`src/unnamed/part_001`, `formatProtocolContent`). -/
inductive Block
  | heading (level : Nat) (text : Str)
  | utter (t1 t2 sp text : Str)
  | numbered (numPart : Str) (level : Nat) (text : Str)
  | bullets (items : List Str)
  | instr (text : Str)
  | para (text : Str)
  | spacer
deriving DecidableEq

/-- Horizontal-rule test of `formatProtocolContent` line 143: the
literal `---` or `/^-{3,}$/`. -/
def isRuleLine (s : Str) : Bool :=
  decide (s = str "---") || (decide (3 ≤ s.length) && s.all (fun c => c = '-'))

/-- The trailing `\s*(.+)$` of the utterance and numbered-item
regexes: greedy whitespace, then at least one character that reaches
the end of the string without crossing a newline (`.` does not match
newlines); on a whitespace-only remainder the greedy run backtracks
one character. -/
def tailText (r : Str) : Option Str :=
  let tx := r.dropWhile isWs
  if tx = [] then
    match r.reverse with
    | [] => none
    | last :: _ => if last = '\n' then none else some [last]
  else if tx.all (fun c => c ≠ '\n') then some tx else none

/-- Matcher for the transcript-utterance line regex
(`formatProtocolContent` line 188, flags `i`):
`^\[(\d{2}:\d{2})\s*-\s*(\d{2}:\d{2})\]\s*Спикер\s+([A-Z0-9]+):\s*(.+)$`.
Returns the two time groups, the identifier and the text. -/
def utterAt (s : Str) : Option (Str × Str × Str × Str) :=
  match s with
  | '[' :: r0 =>
    match timePair r0 with
    | some (t1, r1) =>
      match r1.dropWhile isWs with
      | '-' :: r3 =>
        match timePair (r3.dropWhile isWs) with
        | some (t2, r5) =>
          match r5 with
          | ']' :: r6 =>
            match wsLit (str "Спикер") r6 with
            | some (_, r7) =>
              let w2 := r7.takeWhile isWs
              let r8 := r7.dropWhile isWs
              let idRun := r8.takeWhile isAlnumCI
              let r9 := r8.dropWhile isAlnumCI
              if w2 ≠ [] ∧ idRun ≠ [] then
                match r9 with
                | ':' :: r10 => (tailText r10).map (fun tx => (t1, t2, idRun, tx))
                | _ => none
              else none
            | none => none
          | _ => none
        | none => none
      | _ => none
    | none => none
  | _ => none

/-- Fuel-driven consumption of the `(?:\.\d+)*` groups of the
numbered-item regex; each group is returned as `.digits`.  The fuel
never runs out when initialised to `length + 1`. -/
def dotGroupsF : Nat → Str → (List Str × Str)
  | 0, s => ([], s)
  | fuel + 1, s =>
    match s with
    | '.' :: rest =>
      let ds := rest.takeWhile isDigit
      if ds = [] then ([], s)
      else
        let p := dotGroupsF fuel (rest.dropWhile isDigit)
        (('.' :: ds) :: p.1, p.2)
    | _ => ([], s)

/-- All `(?:\.\d+)*` groups from the front of `s`. -/
def dotGroups (s : Str) : (List Str × Str) := dotGroupsF (s.length + 1) s

/-- Matcher for the numbered-item regex (`formatProtocolContent` line
212): `^(\d+(?:\.\d+)*\.)\s*(.+)$`, with the engine backtracking that
reuses the last `.digits` group's dot as the final dot when no literal
dot follows (so `1.2` parses as prefix `1.` and text `2`).  Returns
the numeric prefix (including its final dot) and the text. -/
def numberedAt (s : Str) : Option (Str × Str) :=
  let ds := s.takeWhile isDigit
  if ds = [] then none
  else
    let r1 := s.dropWhile isDigit
    let p := dotGroups r1
    match p.2 with
    | '.' :: r3 => (tailText r3).map (fun tx => (ds ++ p.1.flatten ++ ['.'], tx))
    | _ =>
      match p.1.reverse with
      | [] => none
      | g :: gsRev =>
        match g with
        | '.' :: digits =>
          (tailText (digits ++ p.2)).map
            (fun tx => (ds ++ gsRev.reverse.flatten ++ ['.'], tx))
        | _ => none

/-- The bullet-marker strip `trimmed.replace(/^[-•]\s*/, "")`
(`formatProtocolContent` line 229). -/
def bulletItem (s : Str) : Str :=
  match s with
  | c :: r => if c = '-' ∨ c = '•' then r.dropWhile isWs else s
  | [] => []

/-- One keyword alternative of the instruction-line regex: the keyword
case-insensitively, then a colon. -/
def kwColon (w : String) (s : Str) : Bool :=
  match litCI (str w) s with
  | some (':' :: _) => true
  | _ => false

/-- The instruction-line test (`formatProtocolContent` line 237):
`/^(Поручение|Ответственный|Срок|Ответственные|Сроки):/i`. -/
def isInstr (s : Str) : Bool :=
  kwColon "Поручение" s || kwColon "Ответственный" s || kwColon "Срок" s ||
  kwColon "Ответственные" s || kwColon "Сроки" s

/-- Parser state: emitted blocks and the open bullet-list accumulator. -/
structure PState where
  elements : List Block
  currentList : List Str
deriving DecidableEq

/-- The `flushList` closure of `formatProtocolContent` lines 123-137. -/
def flushList (st : PState) : PState :=
  if st.currentList = [] then st
  else { elements := st.elements ++ [Block.bullets st.currentList], currentList := [] }

/-- Per-line classification of `formatProtocolContent` lines 139-254,
in the code's priority order: blank or rule, headings 1-3, transcript
utterance, numbered item, bullet line, instruction line, paragraph. -/
def stepLine (st : PState) (line : Str) : PState :=
  let trimmed := jsTrim line
  if trimmed = [] ∨ isRuleLine trimmed then
    let st1 := flushList st
    if trimmed = [] ∧ st1.elements ≠ [] then
      { st1 with elements := st1.elements ++ [Block.spacer] }
    else st1
  else if startsW trimmed (str "# ") then
    let st1 := flushList st
    { st1 with elements := st1.elements ++ [Block.heading 1 (jsTrim (trimmed.drop 2))] }
  else if startsW trimmed (str "## ") then
    let st1 := flushList st
    { st1 with elements := st1.elements ++ [Block.heading 2 (jsTrim (trimmed.drop 3))] }
  else if startsW trimmed (str "### ") then
    let st1 := flushList st
    { st1 with elements := st1.elements ++ [Block.heading 3 (jsTrim (trimmed.drop 4))] }
  else
    match utterAt trimmed with
    | some (t1, t2, sp, tx) =>
      let st1 := flushList st
      { st1 with elements := st1.elements ++ [Block.utter t1 t2 sp tx] }
    | none =>
      match numberedAt trimmed with
      | some (numPart, tx) =>
        let st1 := flushList st
        { st1 with elements := st1.elements ++
            [Block.numbered numPart (numPart.count '.') tx] }
      | none =>
        if startsW trimmed (str "- ") || startsW trimmed (str "•") then
          let item := jsTrim (bulletItem trimmed)
          if item = [] then st else { st with currentList := st.currentList ++ [item] }
        else if isInstr trimmed then
          let st1 := flushList st
          { st1 with elements := st1.elements ++ [Block.instr trimmed] }
        else
          let st1 := flushList st
          { st1 with elements := st1.elements ++ [Block.para trimmed] }

/-- `content.split("\n")`. -/
def splitLines : Str → List Str
  | [] => [[]]
  | '\n' :: r => [] :: splitLines r
  | c :: r =>
    match splitLines r with
    | l :: ls => (c :: l) :: ls
    | [] => [[c]]

/-- Embeds `formatProtocolContent` (`src/unnamed/part_001` lines
115-260) as a block parser: split into lines, fold the per-line
classifier, and flush the last open list (the empty input returns no
blocks, modelling the early `null`). -/
def parseBlocks (content : Str) : List Block :=
  if content = [] then []
  else (flushList ((splitLines content).foldl stepLine ⟨[], []⟩)).elements

/-- C8 counterexample: the input `a\n\n\nb` holds a single run of two
consecutive blank lines, yet the parser emits two Spacer blocks —
one per blank line — refuting the at-most-one-Spacer-per-run claim. -/
theorem c8_spacer_per_blank_line_counterexample :
    parseBlocks (str "a\n\n\nb") =
      [Block.para (str "a"), Block.spacer, Block.spacer, Block.para (str "b")] ∧
    ¬ (parseBlocks (str "a\n\n\nb")).count Block.spacer ≤ 1 := by
  refine ⟨by decide, by decide⟩

theorem flushList_currentList (st : PState) : (flushList st).currentList = [] := by
  unfold flushList
  split
  · rename_i h
    cases st
    simpa using h
  · rfl

/-- C8 amended: a blank line flushes any open bullet list and emits
one Spacer whenever at least one block has already been emitted (so a
run of n blank lines after content yields n Spacers, and leading blank
lines yield none); a horizontal-rule line flushes the open list and
emits no block of its own. -/
theorem c8_blank_and_rule_lines (st : PState) (line : Str) :
    ((flushList st).currentList = []) ∧
    (jsTrim line = [] → (flushList st).elements ≠ [] →
      stepLine st line =
        { flushList st with elements := (flushList st).elements ++ [Block.spacer] }) ∧
    (jsTrim line = [] → (flushList st).elements = [] →
      stepLine st line = flushList st) ∧
    (jsTrim line ≠ [] → isRuleLine (jsTrim line) = true →
      stepLine st line = flushList st) := by
  refine ⟨flushList_currentList st, fun hb hne => ?_, fun hb hnil => ?_, fun hnb hr => ?_⟩
  · simp only [stepLine, hb, true_or, if_pos, true_and]
    rw [if_pos]
    exact hne
  · simp only [stepLine, hb, true_or, if_pos, true_and]
    rw [if_neg]
    simp [hnil]
  · simp only [stepLine, hr, or_true, if_pos]
    rw [if_neg]
    simp [hnb]

/-- C8 witness: the theorem applied to concrete states — a blank line
after an open bullet list flushes it and appends one Spacer, and a
rule line only flushes. -/
theorem c8_blank_and_rule_lines_witness :
    stepLine ⟨[Block.para (str "a")], [str "x"]⟩ (str " ") =
      ⟨[Block.para (str "a"), Block.bullets [str "x"], Block.spacer], []⟩ ∧
    stepLine ⟨[Block.para (str "a")], [str "x"]⟩ (str "----") =
      ⟨[Block.para (str "a"), Block.bullets [str "x"]], []⟩ := by
  constructor
  · have h := (c8_blank_and_rule_lines ⟨[Block.para (str "a")], [str "x"]⟩ (str " ")).2.1
      (by decide) (by decide)
    rw [h]
    decide
  · have h := (c8_blank_and_rule_lines ⟨[Block.para (str "a")], [str "x"]⟩
      (str "----")).2.2.2 (by decide) (by decide)
    rw [h]
    decide

/-- One regex match of the inline formatter
(`src/unnamed/part_001`, `formatInlineMarkdown` lines 277-296):
half-open span `[mstart, mstop)`, the kind, and the captured inner
text. -/
structure IMatch where
  mstart : Nat
  mstop : Nat
  bold : Bool
  inner : Str
deriving DecidableEq

/-- Lazy closing scan of `(.+?)\*\*`: the inner text runs to the first
`**`, never crossing a newline.  The close is checked before the inner
text is extended, as a lazy quantifier does. -/
def boldCloseAux : Str → Option (Str × Str)
  | [] => none
  | [_] => none
  | c1 :: c2 :: r =>
    if c1 = '*' ∧ c2 = '*' then some ([], r)
    else if c1 = '\n' then none
    else
      match boldCloseAux (c2 :: r) with
      | some (i, rest) => some (c1 :: i, rest)
      | none => none

/-- One attempt of `\*\*(.+?)\*\*` at a fixed position: two opening
stars, at least one non-newline character, then the earliest `**`. -/
def boldAt (s : Str) : Option (Str × Str) :=
  match s with
  | '*' :: '*' :: c :: r =>
    if c = '\n' then none
    else
      match boldCloseAux r with
      | some (i, rest) => some (c :: i, rest)
      | none => none
  | _ => none

/-- Lazy closing scan of `(.+?)_`. -/
def italCloseAux : Str → Option (Str × Str)
  | [] => none
  | c :: r =>
    if c = '_' then some ([], r)
    else if c = '\n' then none
    else
      match italCloseAux r with
      | some (i, rest) => some (c :: i, rest)
      | none => none

/-- One attempt of `_(.+?)_` at a fixed position. -/
def italAt (s : Str) : Option (Str × Str) :=
  match s with
  | '_' :: c :: r =>
    if c = '\n' then none
    else
      match italCloseAux r with
      | some (i, rest) => some (c :: i, rest)
      | none => none
  | _ => none

/-- Fuel-driven global scan collecting matches with absolute offsets
(the repeated `exec` loops of `formatInlineMarkdown` lines 280-296);
the fuel never runs out when initialised to `length + 1`. -/
def findMatches (f : Str → Option (Str × Str)) (b : Bool) :
    Nat → Nat → Str → List IMatch
  | 0, _, _ => []
  | _ + 1, _, [] => []
  | fuel + 1, pos, c :: cs =>
    match f (c :: cs) with
    | some (i, rest) =>
      let len := (c :: cs).length - rest.length
      ⟨pos, pos + len, b, i⟩ ::
        findMatches f b fuel (pos + len) (if rest.length < cs.length + 1 then rest else cs)
    | none => findMatches f b fuel (pos + 1) cs

/-- All bold matches of the string. -/
def findBold (s : Str) : List IMatch := findMatches boldAt true (s.length + 1) 0 s

/-- All italic matches of the string. -/
def findItal (s : Str) : List IMatch := findMatches italAt false (s.length + 1) 0 s

/-- Stable merge by start offset, bold list first — the result of the
stable `matches.sort((a, b) => a.start - b.start)` on the concatenated
match lists (`formatInlineMarkdown` line 299). -/
def mergeByStart : List IMatch → List IMatch → List IMatch
  | [], ys => ys
  | x :: xs, ys =>
    ys.takeWhile (fun y => y.mstart < x.mstart) ++
      x :: mergeByStart xs (ys.dropWhile (fun y => y.mstart < x.mstart))

/-- The merged, sorted match list of `formatInlineMarkdown`. -/
def sortedMatches (s : Str) : List IMatch := mergeByStart (findBold s) (findItal s)

/-- The overlap condition of `formatInlineMarkdown` lines 307-311,
verbatim: current against an already-accepted match. -/
def overlapsCode (cur fil : IMatch) : Bool :=
  (fil.mstart ≤ cur.mstart ∧ cur.mstart < fil.mstop) ∨
  (fil.mstart < cur.mstop ∧ cur.mstop ≤ fil.mstop) ∨
  (cur.mstart ≤ fil.mstart ∧ fil.mstop ≤ cur.mstop)

/-- The overlap-resolution loop of `formatInlineMarkdown` lines
302-319: scan in ascending start order, discard any match that
overlaps an already-accepted one. -/
def filterAux : List IMatch → List IMatch → List IMatch
  | acc, [] => acc
  | acc, cur :: rest =>
    if acc.any (fun fil => overlapsCode cur fil) then filterAux acc rest
    else filterAux (acc ++ [cur]) rest

/-- The accepted matches. -/
def filterOverlaps (ms : List IMatch) : List IMatch := filterAux [] ms

/-- Genuine span intersection of two half-open intervals. -/
def intersects (a b : IMatch) : Prop :=
  max a.mstart b.mstart < min a.mstop b.mstop

instance : ∀ a b : IMatch, Decidable (intersects a b) :=
  fun a b =>
    inferInstanceAs (Decidable (max a.mstart b.mstart < min a.mstop b.mstop))

/-- Inline span tree: plain text, bold with recursively parsed
children, or an italic leaf. -/
inductive Span
  | text (s : Str)
  | bold (children : List Span)
  | ital (s : Str)

/-- Gap-and-span assembly of `formatInlineMarkdown` lines 322-356:
plain text before each accepted match, then the formatted span, then
the remaining text after the last match. -/
def assembleSpans (s : Str) : List (IMatch × List Span) → Nat → List Span
  | [], lastIdx =>
    let tail := s.drop lastIdx
    if lastIdx < s.length ∧ tail ≠ [] then [Span.text tail] else []
  | (m, children) :: rest, lastIdx =>
    let gap := (s.take m.mstart).drop lastIdx
    (if lastIdx < m.mstart ∧ gap ≠ [] then [Span.text gap] else []) ++
      (if m.bold then [Span.bold children] else [Span.ital m.inner]) ++
      assembleSpans s rest m.mstop

theorem boldCloseAux_spec : ∀ r i rest, boldCloseAux r = some (i, rest) →
    i.length + 2 + rest.length = r.length := by
  intro r
  induction r with
  | nil => intro i rest h; simp [boldCloseAux] at h
  | cons c1 r ih =>
    intro i rest h
    cases r with
    | nil => simp [boldCloseAux] at h
    | cons c2 r2 =>
      simp only [boldCloseAux] at h
      split at h
      · cases h; simp only [List.length_nil, List.length_cons]; omega
      · split at h
        · cases h
        · cases hrec : boldCloseAux (c2 :: r2) with
          | none => rw [hrec] at h; cases h
          | some p =>
            obtain ⟨i0, rest0⟩ := p
            rw [hrec] at h
            cases h
            have := ih i0 rest hrec
            simp only [List.length_cons] at this ⊢
            omega

theorem italCloseAux_spec : ∀ r i rest, italCloseAux r = some (i, rest) →
    i.length + 1 + rest.length = r.length := by
  intro r
  induction r with
  | nil => intro i rest h; simp [italCloseAux] at h
  | cons c1 r ih =>
    intro i rest h
    simp only [italCloseAux] at h
    split at h
    · cases h; simp only [List.length_nil, List.length_cons]; omega
    · split at h
      · cases h
      · cases hrec : italCloseAux r with
        | none => rw [hrec] at h; cases h
        | some p =>
          obtain ⟨i0, rest0⟩ := p
          rw [hrec] at h
          cases h
          have := ih i0 rest hrec
          simp only [List.length_cons] at this ⊢
          omega

theorem boldAt_spec : ∀ s i rest, boldAt s = some (i, rest) →
    i.length + 4 + rest.length = s.length := by
  intro s i rest h
  unfold boldAt at h
  split at h
  case h_2 => cases h
  case h_1 c r =>
    split at h
    · cases h
    · cases hrec : boldCloseAux r with
      | none => rw [hrec] at h; cases h
      | some p =>
        obtain ⟨i0, rest0⟩ := p
        rw [hrec] at h
        cases h
        have := boldCloseAux_spec r i0 rest hrec
        simp only [List.length_cons] at this ⊢
        omega

theorem italAt_spec : ∀ s i rest, italAt s = some (i, rest) →
    i.length + 2 + rest.length = s.length := by
  intro s i rest h
  unfold italAt at h
  split at h
  case h_2 => cases h
  case h_1 c r =>
    split at h
    · cases h
    · cases hrec : italCloseAux r with
      | none => rw [hrec] at h; cases h
      | some p =>
        obtain ⟨i0, rest0⟩ := p
        rw [hrec] at h
        cases h
        have := italCloseAux_spec r i0 rest hrec
        simp only [List.length_cons] at this ⊢
        omega

/-- Ascending start offsets, the sort key of the code. -/
def startLe (a b : IMatch) : Prop := a.mstart ≤ b.mstart

instance : DecidableRel startLe :=
  fun a b => inferInstanceAs (Decidable (a.mstart ≤ b.mstart))

theorem findMatches_inv (f : Str → Option (Str × Str)) (b : Bool)
    (hf : ∀ s i r, f s = some (i, r) →
      i.length + 2 + r.length ≤ s.length ∧ r.length < s.length) :
    ∀ fuel pos s,
      (∀ m ∈ findMatches f b fuel pos s,
        pos ≤ m.mstart ∧ m.mstart + m.inner.length + 2 ≤ m.mstop ∧
        m.mstop ≤ pos + s.length) ∧
      List.Pairwise (fun a a' => a.mstop ≤ a'.mstart) (findMatches f b fuel pos s) := by
  intro fuel
  induction fuel with
  | zero => intro pos s; simp [findMatches]
  | succ n ih =>
    intro pos s
    cases s with
    | nil => simp [findMatches]
    | cons c cs =>
      simp only [findMatches]
      cases hm : f (c :: cs) with
      | none =>
        simp only
        obtain ⟨ihb, ihp⟩ := ih (pos + 1) cs
        refine ⟨fun m hmem => ?_, ihp⟩
        obtain ⟨h1, h2, h3⟩ := ihb m hmem
        simp only [List.length_cons]
        omega
      | some p =>
        obtain ⟨i, rest⟩ := p
        simp only
        have hfs := hf (c :: cs) i rest hm
        simp only [List.length_cons] at hfs
        rw [if_pos (show rest.length < cs.length + 1 by omega)]
        obtain ⟨ihb, ihp⟩ := ih (pos + ((c :: cs).length - rest.length)) rest
        constructor
        · intro m hmem
          rcases List.mem_cons.mp hmem with he | ht
          · subst he
            simp only [List.length_cons] at *
            omega
          · obtain ⟨h1, h2, h3⟩ := ihb m ht
            simp only [List.length_cons] at *
            omega
        · refine List.Pairwise.cons (fun m hmem => ?_) ihp
          obtain ⟨h1, _, _⟩ := ihb m hmem
          simp only [List.length_cons] at *
          omega

theorem boldAt_hf : ∀ s i r, boldAt s = some (i, r) →
    i.length + 2 + r.length ≤ s.length ∧ r.length < s.length := by
  intro s i r h
  have := boldAt_spec s i r h
  omega

theorem italAt_hf : ∀ s i r, italAt s = some (i, r) →
    i.length + 2 + r.length ≤ s.length ∧ r.length < s.length := by
  intro s i r h
  have := italAt_spec s i r h
  omega

theorem findBold_inv (s : Str) :
    (∀ m ∈ findBold s, m.mstart + m.inner.length + 2 ≤ m.mstop ∧ m.mstop ≤ s.length) ∧
    List.Pairwise (fun a a' => a.mstop ≤ a'.mstart) (findBold s) := by
  obtain ⟨hb, hp⟩ := findMatches_inv boldAt true boldAt_hf (s.length + 1) 0 s
  exact ⟨fun m hm => ⟨(hb m hm).2.1, by have := (hb m hm).2.2; omega⟩, hp⟩

theorem findItal_inv (s : Str) :
    (∀ m ∈ findItal s, m.mstart + m.inner.length + 2 ≤ m.mstop ∧ m.mstop ≤ s.length) ∧
    List.Pairwise (fun a a' => a.mstop ≤ a'.mstart) (findItal s) := by
  obtain ⟨hb, hp⟩ := findMatches_inv italAt false italAt_hf (s.length + 1) 0 s
  exact ⟨fun m hm => ⟨(hb m hm).2.1, by have := (hb m hm).2.2; omega⟩, hp⟩

theorem mergeByStart_perm : ∀ xs ys, (mergeByStart xs ys).Perm (xs ++ ys) := by
  intro xs
  induction xs with
  | nil => intro ys; simp [mergeByStart]
  | cons x xs ih =>
    intro ys
    simp only [mergeByStart]
    have h1 : (ys.takeWhile (fun y => y.mstart < x.mstart) ++
        x :: mergeByStart xs (ys.dropWhile (fun y => y.mstart < x.mstart))).Perm
        (x :: (ys.takeWhile (fun y => y.mstart < x.mstart) ++
          mergeByStart xs (ys.dropWhile (fun y => y.mstart < x.mstart)))) :=
      List.perm_middle
    have h2 := (ih (ys.dropWhile (fun y => y.mstart < x.mstart))).append_left
      (ys.takeWhile (fun y => y.mstart < x.mstart))
    have h3 : (ys.takeWhile (fun y => y.mstart < x.mstart) ++
        (xs ++ ys.dropWhile (fun y => y.mstart < x.mstart))).Perm
        (xs ++ (ys.takeWhile (fun y => y.mstart < x.mstart) ++
          ys.dropWhile (fun y => y.mstart < x.mstart))) := by
      rw [← List.append_assoc, ← List.append_assoc]
      exact List.Perm.append_right _ List.perm_append_comm
    have h4 := (h2.trans h3).cons x
    have := h1.trans h4
    rwa [List.takeWhile_append_dropWhile] at this

theorem sorted_dropWhile_lt (k : Nat) :
    ∀ ys : List IMatch, List.Pairwise startLe ys →
      ∀ y ∈ ys.dropWhile (fun z => decide (z.mstart < k)), k ≤ y.mstart := by
  intro ys
  induction ys with
  | nil => intro _ y hy; simp [List.dropWhile] at hy
  | cons a ys ih =>
    intro hp y hy
    rw [List.dropWhile_cons] at hy
    by_cases ha : a.mstart < k
    · rw [if_pos (by simpa using ha)] at hy
      exact ih hp.tail y hy
    · rw [if_neg (by simpa using ha)] at hy
      rcases List.mem_cons.mp hy with he | ht
      · subst he; omega
      · have hr : startLe a y := (List.pairwise_cons.mp hp).1 y ht
        unfold startLe at hr
        omega

theorem mergeByStart_mem {a : IMatch} : ∀ xs ys,
    a ∈ mergeByStart xs ys ↔ a ∈ xs ∨ a ∈ ys := by
  intro xs ys
  rw [(mergeByStart_perm xs ys).mem_iff, List.mem_append]

theorem mergeByStart_sorted : ∀ xs ys, List.Pairwise startLe xs →
    List.Pairwise startLe ys → List.Pairwise startLe (mergeByStart xs ys) := by
  intro xs
  induction xs with
  | nil => intro ys _ hys; simpa [mergeByStart] using hys
  | cons x xs ih =>
    intro ys hxs hys
    simp only [mergeByStart]
    rw [List.pairwise_append]
    obtain ⟨hx, hxs'⟩ := List.pairwise_cons.mp hxs
    have hdp : List.Pairwise startLe (ys.dropWhile (fun y => decide (y.mstart < x.mstart))) :=
      List.Pairwise.sublist (List.dropWhile_sublist _) hys
    have hge : ∀ y ∈ ys.dropWhile (fun y => decide (y.mstart < x.mstart)),
        x.mstart ≤ y.mstart := sorted_dropWhile_lt x.mstart ys hys
    refine ⟨List.Pairwise.sublist (List.takeWhile_sublist _) hys, ?_, ?_⟩
    · rw [List.pairwise_cons]
      refine ⟨fun m hm => ?_, ih _ hxs' hdp⟩
      rcases (mergeByStart_mem _ _).mp hm with hin | hin
      · exact hx m hin
      · exact hge m hin
    · intro a ha b hb
      have hlt : a.mstart < x.mstart := by
        have := List.mem_takeWhile_imp ha
        simpa using this
      rcases List.mem_cons.mp hb with he | ht
      · subst he; unfold startLe; omega
      · rcases (mergeByStart_mem _ _).mp ht with hin | hin
        · have := hx b hin
          unfold startLe at *
          omega
        · have := hge b hin
          unfold startLe
          omega

theorem sortedMatches_perm (s : Str) :
    (sortedMatches s).Perm (findBold s ++ findItal s) :=
  mergeByStart_perm _ _

theorem pairwise_stop_start_imp_startLe {l : List IMatch}
    (h : List.Pairwise (fun a a' => a.mstop ≤ a'.mstart) l)
    (hpr : ∀ m ∈ l, m.mstart < m.mstop) : List.Pairwise startLe l := by
  refine h.imp_of_mem ?_
  intro a b ha _ hr
  have := hpr a ha
  unfold startLe
  omega

theorem sortedMatches_bounds (s : Str) :
    ∀ m ∈ sortedMatches s,
      m.mstart + m.inner.length + 2 ≤ m.mstop ∧ m.mstop ≤ s.length := by
  intro m hm
  rcases (mergeByStart_mem _ _).mp hm with hin | hin
  · exact (findBold_inv s).1 m hin
  · exact (findItal_inv s).1 m hin

theorem sortedMatches_proper (s : Str) : ∀ m ∈ sortedMatches s, m.mstart < m.mstop := by
  intro m hm
  have := (sortedMatches_bounds s m hm).1
  omega

theorem sortedMatches_sorted (s : Str) : List.Pairwise startLe (sortedMatches s) := by
  have hb := findBold_inv s
  have hi := findItal_inv s
  refine mergeByStart_sorted _ _ ?_ ?_
  · exact pairwise_stop_start_imp_startLe hb.2 (fun m hm => by have := (hb.1 m hm).1; omega)
  · exact pairwise_stop_start_imp_startLe hi.2 (fun m hm => by have := (hi.1 m hm).1; omega)

theorem intersects_comm {a b : IMatch} (h : intersects a b) : intersects b a := by
  unfold intersects at *
  omega

theorem overlapsCode_iff {cur fil : IMatch} (hc : cur.mstart < cur.mstop)
    (hf : fil.mstart < fil.mstop) :
    overlapsCode cur fil = true ↔ intersects cur fil := by
  simp only [overlapsCode, intersects, decide_eq_true_eq]
  constructor
  · intro h
    rcases h with h | h | h <;> omega
  · intro h
    omega

theorem filterAux_structure : ∀ rest acc, ∃ sub,
    filterAux acc rest = acc ++ sub ∧ sub.Sublist rest := by
  intro rest
  induction rest with
  | nil => intro acc; exact ⟨[], by simp [filterAux], List.nil_sublist _⟩
  | cons cur rest ih =>
    intro acc
    simp only [filterAux]
    by_cases h : acc.any (fun fil => overlapsCode cur fil)
    · obtain ⟨sub, he, hs⟩ := ih acc
      rw [if_pos h]
      exact ⟨sub, he, hs.cons cur⟩
    · obtain ⟨sub, he, hs⟩ := ih (acc ++ [cur])
      rw [if_neg h, he, List.append_assoc]
      exact ⟨cur :: sub, rfl, hs.cons₂ cur⟩

theorem filterAux_acc_mem : ∀ rest acc (a : IMatch), a ∈ acc → a ∈ filterAux acc rest := by
  intro rest acc a ha
  obtain ⟨sub, he, _⟩ := filterAux_structure rest acc
  rw [he, List.mem_append]
  exact Or.inl ha

theorem filterOverlaps_sublist (ms : List IMatch) :
    (filterOverlaps ms).Sublist ms := by
  obtain ⟨sub, he, hs⟩ := filterAux_structure ms []
  unfold filterOverlaps
  rw [he]
  simpa using hs

theorem filterAux_pairwise : ∀ rest acc,
    (∀ x ∈ acc, x.mstart < x.mstop) → (∀ x ∈ rest, x.mstart < x.mstop) →
    List.Pairwise (fun a a' => ¬ intersects a a') acc →
    List.Pairwise (fun a a' => ¬ intersects a a') (filterAux acc rest) := by
  intro rest
  induction rest with
  | nil => intro acc _ _ hp; simpa [filterAux] using hp
  | cons cur rest ih =>
    intro acc hacc hrest hp
    simp only [filterAux]
    by_cases h : acc.any (fun fil => overlapsCode cur fil)
    · rw [if_pos h]
      exact ih acc hacc (fun x hx => hrest x (List.mem_cons_of_mem cur hx)) hp
    · rw [if_neg h]
      have hcur : cur.mstart < cur.mstop := hrest cur (List.mem_cons_self cur rest)
      have hnone : ∀ fil ∈ acc, ¬ intersects cur fil := by
        intro fil hfil
        have := List.any_eq_false.mp (Bool.of_not_eq_true h) fil hfil
        rw [← overlapsCode_iff hcur (hacc fil hfil)]
        simp [this]
      refine ih (acc ++ [cur]) ?_ (fun x hx => hrest x (List.mem_cons_of_mem cur hx)) ?_
      · intro x hx
        rcases List.mem_append.mp hx with h1 | h1
        · exact hacc x h1
        · rw [List.mem_singleton] at h1
          subst h1
          exact hcur
      · rw [List.pairwise_append]
        refine ⟨hp, List.pairwise_singleton _ _, ?_⟩
        intro a ha b hb
        rw [List.mem_singleton] at hb
        subst hb
        intro hint
        exact hnone a ha (intersects_comm hint)

theorem filterAux_discarded : ∀ rest acc,
    (∀ x ∈ acc, x.mstart < x.mstop) → (∀ x ∈ rest, x.mstart < x.mstop) →
    (∀ a ∈ acc, ∀ r ∈ rest, a.mstart ≤ r.mstart) →
    List.Pairwise startLe rest →
    ∀ m ∈ rest, m ∉ filterAux acc rest →
      ∃ mp, mp ∈ filterAux acc rest ∧ mp.mstart ≤ m.mstart ∧ intersects mp m := by
  intro rest
  induction rest with
  | nil => intro acc _ _ _ _ m hm; simp at hm
  | cons cur rest ih =>
    intro acc hacc hrest horder hsorted m hm hnotin
    simp only [filterAux] at hnotin ⊢
    have hcur : cur.mstart < cur.mstop := hrest cur (List.mem_cons_self cur rest)
    by_cases h : acc.any (fun fil => overlapsCode cur fil)
    · rw [if_pos h] at hnotin ⊢
      rcases List.mem_cons.mp hm with he | ht
      · subst he
        obtain ⟨fil, hfil, hov⟩ := List.any_eq_true.mp h
        have hint : intersects m fil :=
          (overlapsCode_iff hcur (hacc fil hfil)).mp hov
        refine ⟨fil, filterAux_acc_mem rest acc fil hfil, ?_, intersects_comm hint⟩
        exact horder fil hfil m (List.mem_cons_self m rest)
      · exact ih acc hacc (fun x hx => hrest x (List.mem_cons_of_mem cur hx))
          (fun a ha r hr => horder a ha r (List.mem_cons_of_mem cur hr))
          hsorted.tail m ht hnotin
    · rw [if_neg h] at hnotin ⊢
      rcases List.mem_cons.mp hm with he | ht
      · subst he
        exact absurd (filterAux_acc_mem rest _ m (by simp)) hnotin
      · refine ih (acc ++ [cur]) ?_
          (fun x hx => hrest x (List.mem_cons_of_mem cur hx)) ?_ hsorted.tail m ht hnotin
        · intro x hx
          rcases List.mem_append.mp hx with h1 | h1
          · exact hacc x h1
          · rw [List.mem_singleton] at h1
            subst h1
            exact hcur
        · intro a ha r hr
          rcases List.mem_append.mp ha with h1 | h1
          · exact horder a h1 r (List.mem_cons_of_mem cur hr)
          · rw [List.mem_singleton] at h1
            subst h1
            exact (List.pairwise_cons.mp hsorted).1 r hr

theorem filterOverlaps_head : ∀ (m : IMatch) (rest : List IMatch),
    m ∈ filterOverlaps (m :: rest) := by
  intro m rest
  unfold filterOverlaps
  simp only [filterAux, List.any_nil, Bool.false_eq_true, if_false]
  exact filterAux_acc_mem rest [m] m (by simp)

theorem inner_lt_of_mem_filtered {s : Str} {m : IMatch}
    (hm : m ∈ filterOverlaps (sortedMatches s)) : m.inner.length < s.length := by
  have hmem : m ∈ sortedMatches s :=
    (filterOverlaps_sublist (sortedMatches s)).mem hm
  have := sortedMatches_bounds s m hmem
  omega

/-- Embeds `formatInlineMarkdown` (`src/unnamed/part_001` lines
265-364): find bold and italic matches independently, merge and sort
by start offset, resolve overlaps in ascending start order, then build
spans with plain-text gaps; bold spans recursively re-run the function
on their inner text, italic spans are leaves; with no accepted match
the whole input is returned as a single text span (the raw-string
return), and the empty input returns no spans (the early null). -/
def formatInline (s : Str) : List Span :=
  if s = [] then []
  else
    let fs := filterOverlaps (sortedMatches s)
    if fs = [] then [Span.text s]
    else
      assembleSpans s
        ((filterOverlaps (sortedMatches s)).attach.map
          (fun m => (m.1, if m.1.bold then formatInline m.1.inner else []))) 0
termination_by s.length
decreasing_by
  exact inner_lt_of_mem_filtered m.2

/-- C9: in the inline parser, the match list is the merge of the
independently found bold and italic matches sorted by start offset;
the overlap resolution accepts a subsequence of it in which accepted
matches are pairwise non-intersecting, every discarded match
intersects an already-accepted match of smaller-or-equal start, and
the earliest-starting match of the whole list is always accepted,
regardless of its kind. -/
theorem c9_earliest_start_wins (s : Str) :
    (sortedMatches s).Perm (findBold s ++ findItal s) ∧
    List.Pairwise startLe (sortedMatches s) ∧
    (filterOverlaps (sortedMatches s)).Sublist (sortedMatches s) ∧
    (∀ m ∈ filterOverlaps (sortedMatches s), ∀ mq ∈ filterOverlaps (sortedMatches s),
      m ≠ mq → ¬ intersects m mq) ∧
    (∀ m ∈ sortedMatches s, m ∉ filterOverlaps (sortedMatches s) →
      ∃ mp, mp ∈ filterOverlaps (sortedMatches s) ∧ mp.mstart ≤ m.mstart ∧
        intersects mp m) ∧
    (∀ m rest, sortedMatches s = m :: rest → m ∈ filterOverlaps (sortedMatches s)) := by
  refine ⟨sortedMatches_perm s, sortedMatches_sorted s, filterOverlaps_sublist _,
    ?_, ?_, ?_⟩
  · have hpw : List.Pairwise (fun a aq => ¬ intersects a aq)
        (filterOverlaps (sortedMatches s)) := by
      unfold filterOverlaps
      exact filterAux_pairwise (sortedMatches s) [] (by simp)
        (sortedMatches_proper s) (by simp)
    have hsym : Symmetric (fun a aq : IMatch => ¬ intersects a aq) := by
      intro a b hab hba
      exact hab (intersects_comm hba)
    intro m hm mq hmq hne
    exact List.Pairwise.forall hsym hpw hm hmq hne
  · intro m hm hnot
    unfold filterOverlaps at hnot ⊢
    exact filterAux_discarded (sortedMatches s) [] (by simp)
      (sortedMatches_proper s) (by simp) (sortedMatches_sorted s) m hm hnot
  · intro m rest heq
    rw [heq]
    exact filterOverlaps_head m rest

/-- C9 witness: on `_a **b_ c**` the italic match starts first; the
theorem's discarded-match clause applied to the overlapping bold match
produces an accepted earlier-starting match intersecting it. -/
theorem c9_earliest_start_wins_witness :
    ∃ mp, mp ∈ filterOverlaps (sortedMatches (str "_a **b_ c**")) ∧
      mp.mstart ≤ (⟨3, 11, true, str "b_ c"⟩ : IMatch).mstart ∧
      intersects mp ⟨3, 11, true, str "b_ c"⟩ := by
  exact (c9_earliest_start_wins (str "_a **b_ c**")).2.2.2.2.1
    ⟨3, 11, true, str "b_ c"⟩ (by decide) (by decide)

/-- The id extraction `speakerLabel.replace(/^Спикер\s+/i, "").trim()`
of `applyMappingToTranscript` (`SpeakerMapping.tsx` line 270). -/
def stripSpeakerTag (label : Str) : Str :=
  match litCI (str "Спикер") label with
  | some r =>
    if r.takeWhile isWs = [] then jsTrim label else jsTrim (r.dropWhile isWs)
  | none => jsTrim label

/-- Pattern 1 of `applyMappingToTranscript` (line 277):
`(\[\d{2}:\d{2}\s*-\s*\d{2}:\d{2}\]\s*)Спикер\s+<id>\s*:` with flags
`gi`; the escaped id is matched literally (`escapeRegExp`, lines
655-657, escapes every metacharacter, so literal matching is exact and
pattern construction never fails).  Returns the captured group, the
matched text and the rest. -/
def matchP1At (spId : Str) (s : Str) : Option (Str × Str × Str) :=
  match matchTsCore s with
  | some (ts, r0) =>
    match wsLit (str "Спикер") r0 with
    | some (w1, r1) =>
      match ws1Lit spId r1 with
      | some (_, r2) =>
        match wsLit [':'] r2 with
        | some (_, r3) => some (ts ++ w1, s.take (s.length - r3.length), r3)
        | none => none
      | none => none
    | none => none
  | none => none

/-- Pattern 2 (line 279): the timestamp group, then the whole label
literally, then `\s*:`. -/
def matchP2At (label : Str) (s : Str) : Option (Str × Str × Str) :=
  match matchTsCore s with
  | some (ts, r0) =>
    match wsLit label r0 with
    | some (w1, r1) =>
      match wsLit [':'] r1 with
      | some (_, r2) => some (ts ++ w1, s.take (s.length - r2.length), r2)
      | none => none
    | none => none
  | none => none

/-- Greedy `\s*` with engine backtracking in front of a designation
matcher. -/
def wsDesig (desig : Str → Option Str) : Str → Option Str
  | [] => desig []
  | c :: cs =>
    if isWs c then
      match wsDesig desig cs with
      | some x => some x
      | none => desig (c :: cs)
    else desig (c :: cs)

/-- Body of patterns 3 and 4 after the `(^|\n)` anchor: greedy
whitespace, the designation, then `\s*:`. -/
def anchorBody (desig : Str → Option Str) (g : Str) (whole : Str) (r : Str) :
    Option (Str × Str × Str) :=
  match wsDesig desig r with
  | some r2 =>
    match wsLit [':'] r2 with
    | some (_, r3) => some (g, whole.take (whole.length - r3.length), r3)
    | none => none
  | none => none

/-- The `Спикер\s+<id>` designation of pattern 3. -/
def canonDesig (spId : Str) (s : Str) : Option Str :=
  match litCI (str "Спикер") s with
  | some r1 =>
    match ws1Lit spId r1 with
    | some (_, r2) => some r2
    | none => none
  | none => none

/-- Pattern 3 (line 281): `(^|\n)\s*Спикер\s+<id>\s*:`; the group
captures the empty start-of-input anchor or the newline. -/
def matchP3At (spId : Str) (atStart : Bool) (s : Str) : Option (Str × Str × Str) :=
  match (if atStart then anchorBody (canonDesig spId) [] s s else none) with
  | some x => some x
  | none =>
    match s with
    | '\n' :: r => anchorBody (canonDesig spId) ['\n'] s r
    | _ => none

/-- Pattern 4 (line 283): `(^|\n)\s*<label>\s*:`. -/
def matchP4At (label : Str) (atStart : Bool) (s : Str) : Option (Str × Str × Str) :=
  match (if atStart then anchorBody (litCI label) [] s s else none) with
  | some x => some x
  | none =>
    match s with
    | '\n' :: r => anchorBody (litCI label) ['\n'] s r
    | _ => none

/-- One attempt of the inner alternation `Спикер\s+<id>|<label>`
(flags `gi`, line 293): the first alternative in full, then the label
literal.  Returns the rest. -/
def innerAt (spId label : Str) (s : Str) : Option Str :=
  match canonDesig spId s with
  | some r => some r
  | none => litCI label s

/-- Fuel-driven global replace of the inner alternation by the
participant name (the `match.replace(...)` of line 293). -/
def replInnerF (spId label name : Str) : Nat → Str → Str
  | 0, s => s
  | _ + 1, [] =>
    match innerAt spId label [] with
    | some _ => name
    | none => []
  | fuel + 1, c :: cs =>
    match innerAt spId label (c :: cs) with
    | some rest =>
      if rest.length < cs.length + 1 then name ++ replInnerF spId label name fuel rest
      else name ++ c :: replInnerF spId label name fuel cs
    | none => c :: replInnerF spId label name fuel cs

/-- The inner replace with adequate fuel. -/
def replInner (spId label name s : Str) : Str :=
  replInnerF spId label name (s.length + 1) s

/-- The shared replacement callback of lines 287-294: a non-blank
captured prefix is kept and followed by `<name>:`; otherwise a match
containing a colon has its designation rewritten in place, and a
colon-free match is replaced by `<name>:`. -/
def replJS (spId label name : Str) (g m : Str) : Str :=
  if g ≠ [] ∧ jsTrim g ≠ [] then g ++ name ++ [':']
  else if m.any (fun c => c = ':') then replInner spId label name m
  else name ++ [':']

/-- Fuel-driven global `replace` for one pattern; the flag tracks
whether the scan position is the start of the input (for the `^`
anchor). -/
def runReplF (M : Bool → Str → Option (Str × Str × Str)) (repl : Str → Str → Str) :
    Nat → Bool → Str → Str
  | 0, _, s => s
  | _ + 1, atS, [] =>
    match M atS [] with
    | some (g, m, _) => repl g m
    | none => []
  | fuel + 1, atS, c :: cs =>
    match M atS (c :: cs) with
    | some (g, m, rest) =>
      if rest.length < cs.length + 1 then repl g m ++ runReplF M repl fuel false rest
      else repl g m ++ c :: runReplF M repl fuel false cs
    | none => c :: runReplF M repl fuel false cs

/-- Global replace with adequate fuel, starting with the given anchor
flag. -/
def runReplB (M : Bool → Str → Option (Str × Str × Str))
    (repl : Str → Str → Str) (atS : Bool) (s : Str) : Str :=
  runReplF M repl (s.length + 1) atS s

/-- One mapping entry of `applyMappingToTranscript` (lines 266-296):
derive the id, then run the four pattern replacements in order. -/
def applyEntry (label name text : Str) : Str :=
  let spId := stripSpeakerTag label
  let t1 := runReplB (fun _ s => matchP1At spId s) (replJS spId label name) true text
  let t2 := runReplB (fun _ s => matchP2At label s) (replJS spId label name) true t1
  let t3 := runReplB (matchP3At spId) (replJS spId label name) true t2
  runReplB (matchP4At label) (replJS spId label name) true t3

/-- Embeds `applyMappingToTranscript` (`SpeakerMapping.tsx` lines
264-298): fold the mapping entries in insertion order, skipping
entries whose participant name is blank. -/
def applyMappingToTranscript (mapping : List (Str × Str)) (text : Str) : Str :=
  mapping.foldl (fun acc e => if jsTrim e.2 = [] then acc else applyEntry e.1 e.2 acc) text

/-- C1 counterexample: with the two-entry mapping sending `Спикер A`
to the non-empty name `Спикер B` and `Спикер B` to `Иван`, the single
timestamp-prefixed occurrence of the mapped label `Спикер A` ends up
replaced by `Иван` — the output of the first substitution is rewritten
again by the later entry — instead of its assigned participant name
`Спикер B`, refuting the claim as stated. -/
theorem c1_cascading_replacement_counterexample :
    applyMappingToTranscript
      [(str "Спикер A", str "Спикер B"), (str "Спикер B", str "Иван")]
      (str "[00:01 - 00:02] Спикер A: да") =
      str "[00:01 - 00:02] Иван: да" ∧
    applyMappingToTranscript
      [(str "Спикер A", str "Спикер B"), (str "Спикер B", str "Иван")]
      (str "[00:01 - 00:02] Спикер A: да") ≠
      str "[00:01 - 00:02] Спикер B: да" := by
  refine ⟨by decide, by decide⟩

theorem char_eq_of_toNat_eq {a b : Char} (h : a.toNat = b.toNat) : a = b := by
  apply Char.eq_of_val_eq
  apply UInt32.eq_of_toBitVec_eq
  exact BitVec.eq_of_toNat_eq h

/-- Reduction of `Char.ofNat` on small scalar values. -/
theorem toNat_ofNat_small (n : Nat) (h : n < 55296) : (Char.ofNat n).toNat = n := by
  unfold Char.ofNat
  rw [dif_pos (Or.inl h)]
  rfl

theorem jsLower_toNat_of_letter {c : Char} (h1 : 65 ≤ c.toNat) (h2 : c.toNat ≤ 90) :
    (jsLower c).toNat = c.toNat + 32 := by
  unfold jsLower
  rw [if_pos]
  · exact toNat_ofNat_small _ (by omega)
  · constructor
    · rw [Char.le_def, UInt32.le_def, BitVec.le_def]
      exact h1
    · rw [Char.le_def, UInt32.le_def, BitVec.le_def]
      exact h2

theorem char_le_iff {a b : Char} : a ≤ b ↔ a.toNat ≤ b.toNat := by
  rw [Char.le_def, UInt32.le_def, BitVec.le_def]
  exact Iff.rfl

theorem jsLower_eq_of_digit {c : Char} (h1 : 48 ≤ c.toNat) (h2 : c.toNat ≤ 57) :
    jsLower c = c := by
  have ha : ('A'.toNat : Nat) = 65 := rfl
  unfold jsLower
  rw [if_neg, if_neg, if_neg]
  · omega
  · omega
  · intro hc
    rw [char_le_iff, char_le_iff] at hc
    have hz : ('Z'.toNat : Nat) = 90 := rfl
    omega

theorem ciEq_upper_iff {a b : Char} (ha : isUpperAlnum a = true)
    (hb : isUpperAlnum b = true) : ciEq a b = true ↔ a = b := by
  simp only [isUpperAlnum, isDigit, Bool.or_eq_true, decide_eq_true_eq] at ha hb
  simp only [ciEq, decide_eq_true_eq]
  constructor
  · intro h
    have hn := congrArg Char.toNat h
    apply char_eq_of_toNat_eq
    rcases ha with ha | ha <;> rcases hb with hb | hb
    · rw [jsLower_toNat_of_letter ha.1 ha.2, jsLower_toNat_of_letter hb.1 hb.2] at hn
      omega
    · rw [jsLower_toNat_of_letter ha.1 ha.2,
        congrArg Char.toNat (jsLower_eq_of_digit hb.1 hb.2)] at hn
      omega
    · rw [congrArg Char.toNat (jsLower_eq_of_digit ha.1 ha.2),
        jsLower_toNat_of_letter hb.1 hb.2] at hn
      omega
    · rw [congrArg Char.toNat (jsLower_eq_of_digit ha.1 ha.2),
        congrArg Char.toNat (jsLower_eq_of_digit hb.1 hb.2)] at hn
      exact hn
  · intro h
    rw [h]

theorem upper_toNat_cases {c : Char} (h : isUpperAlnum c = true) :
    (65 ≤ c.toNat ∧ c.toNat ≤ 90) ∨ (48 ≤ c.toNat ∧ c.toNat ≤ 57) := by
  simp only [isUpperAlnum, isDigit, Bool.or_eq_true, decide_eq_true_eq] at h
  exact h

theorem upper_not_ws {c : Char} (h : isUpperAlnum c = true) : isWs c = false := by
  rcases upper_toNat_cases h with hc | hc <;>
  · simp only [isWs, decide_eq_false_iff_not]
    omega

theorem upper_ne_colon {c : Char} (h : isUpperAlnum c = true) : c ≠ ':' := by
  intro he
  have := congrArg Char.toNat he
  rcases upper_toNat_cases h with hc | hc <;> simp_all

theorem ciEq_upper_colon {c : Char} (h : isUpperAlnum c = true) :
    ciEq c ':' = false := by
  simp only [ciEq, decide_eq_false_iff_not]
  intro he
  have he2 := congrArg Char.toNat he
  have hcol : jsLower ':' = ':' := by decide
  rw [hcol] at he2
  rcases upper_toNat_cases h with hc | hc
  · rw [jsLower_toNat_of_letter hc.1 hc.2] at he2
    simp at he2
    omega
  · rw [jsLower_eq_of_digit hc.1 hc.2] at he2
    simp at he2
    omega

theorem runReplF_fuel_congr (M : Bool → Str → Option (Str × Str × Str))
    (repl : Str → Str → Str) :
    ∀ f1 f2 b s, s.length < f1 → s.length < f2 →
      runReplF M repl f1 b s = runReplF M repl f2 b s := by
  intro f1
  induction f1 with
  | zero => intro f2 b s h1 _; omega
  | succ n ih =>
    intro f2 b s h1 h2
    cases f2 with
    | zero => omega
    | succ m =>
      cases s with
      | nil => rfl
      | cons c cs =>
        simp only [runReplF]
        cases hm : M b (c :: cs) with
        | none =>
          rw [ih m false cs (by simp at h1; omega) (by simp at h2; omega)]
        | some p =>
          obtain ⟨g, mm, rest⟩ := p
          simp only
          by_cases hr : rest.length < cs.length + 1
          · simp only [if_pos hr]
            rw [ih m false rest (by simp only [List.length_cons] at h1 h2; omega)
              (by simp only [List.length_cons] at h1 h2; omega)]
          · simp only [if_neg hr]
            rw [ih m false cs (by simp at h1; omega) (by simp at h2; omega)]

theorem runReplB_nil (M : Bool → Str → Option (Str × Str × Str))
    (repl : Str → Str → Str) (b : Bool) (h : M b [] = none) :
    runReplB M repl b [] = [] := by
  simp [runReplB, runReplF, h]

theorem runReplB_cons_none (M : Bool → Str → Option (Str × Str × Str))
    (repl : Str → Str → Str) (b : Bool) (c : Char) (cs : Str)
    (h : M b (c :: cs) = none) :
    runReplB M repl b (c :: cs) = c :: runReplB M repl false cs := by
  unfold runReplB
  simp only [List.length_cons, runReplF, h]

theorem runReplB_cons_some (M : Bool → Str → Option (Str × Str × Str))
    (repl : Str → Str → Str) (b : Bool) (c : Char) (cs g mm rest : Str)
    (h : M b (c :: cs) = some (g, mm, rest)) (hlen : rest.length ≤ cs.length) :
    runReplB M repl b (c :: cs) = repl g mm ++ runReplB M repl false rest := by
  unfold runReplB
  simp only [List.length_cons, runReplF, h]
  rw [if_pos (show rest.length < cs.length + 1 by omega)]
  exact congrArg (repl g mm ++ ·)
    (runReplF_fuel_congr M repl (cs.length + 1) (rest.length + 1) false rest
      (by omega) (by omega))

theorem runReplB_chars (M : Bool → Str → Option (Str × Str × Str))
    (repl : Str → Str → Str) :
    ∀ (u v : Str), (∀ c ∈ u, ∀ t : Str, M false (c :: t) = none) →
      runReplB M repl false (u ++ v) = u ++ runReplB M repl false v := by
  intro u
  induction u with
  | nil => intro v _; rfl
  | cons c u ih =>
    intro v hu
    rw [List.cons_append,
      runReplB_cons_none M repl false c (u ++ v) (hu c (by simp) _),
      ih v (fun d hd t => hu d (by simp [hd]) t), List.cons_append]

theorem ciEq_refl (c : Char) : ciEq c c = true := by
  simp [ciEq]

theorem litCI_self_append : ∀ (l z : Str), litCI l (l ++ z) = some z := by
  intro l
  induction l with
  | nil => intro z; rfl
  | cons c l ih =>
    intro z
    simp only [List.cons_append, litCI, ciEq_refl, if_pos]
    exact ih z

theorem litCI_append_lit : ∀ (a b s : Str),
    litCI (a ++ b) s =
      match litCI a s with
      | some r => litCI b r
      | none => none := by
  intro a
  induction a with
  | nil => intro b s; rfl
  | cons c a ih =>
    intro b s
    cases s with
    | nil => simp [litCI]
    | cons d ds =>
      simp only [List.cons_append, litCI]
      by_cases h : ciEq d c
      · simp only [h, if_pos]
        exact ih b ds
      · simp [h]

theorem ciEq_colon_upper {c : Char} (h : isUpperAlnum c = true) :
    ciEq ':' c = false := by
  simp only [ciEq, decide_eq_false_iff_not]
  intro he
  have he2 := congrArg Char.toNat he
  have hcol : (jsLower ':').toNat = 58 := by decide
  rw [hcol] at he2
  rcases upper_toNat_cases h with hc | hc
  · rw [jsLower_toNat_of_letter hc.1 hc.2] at he2
    omega
  · rw [congrArg Char.toNat (jsLower_eq_of_digit hc.1 hc.2)] at he2
    omega

theorem upper_all_ne_nl {y : Str} (hy : ∀ c ∈ y, isUpperAlnum c = true) :
    ∀ c ∈ y, c ≠ '[' ∧ c ≠ '\n' ∧ c ≠ ':' := by
  intro c hc
  have h := upper_toNat_cases (hy c hc)
  refine ⟨?_, ?_, upper_ne_colon (hy c hc)⟩
  · intro he
    have := congrArg Char.toNat he
    simp at this
    omega
  · intro he
    have := congrArg Char.toNat he
    simp at this
    omega

/-- Core designation-matching fact: a literal uppercase-alphanumeric
id followed by `\s*:` matches an uppercase-alphanumeric designation
`y:` exactly when the id equals `y`. -/
theorem litCI_id_colon : ∀ (x y r : Str), x ≠ [] → y ≠ [] →
    (∀ c ∈ x, isUpperAlnum c = true) → (∀ c ∈ y, isUpperAlnum c = true) →
    (match litCI x (y ++ ':' :: r) with
     | some r1 => wsLit [':'] r1
     | none => none) = if x = y then some ([], r) else none := by
  intro x
  induction x with
  | nil => intro y r hx _ _ _; exact absurd rfl hx
  | cons a xs ih =>
    intro y r _ hy hxu hyu
    cases y with
    | nil => exact absurd rfl hy
    | cons b ys =>
      simp only [List.cons_append, litCI]
      by_cases hab : ciEq b a
      · have hba : b = a :=
          (ciEq_upper_iff (hyu b (by simp)) (hxu a (by simp))).mp hab
        subst hba
        simp only [hab, if_pos]
        cases xs with
        | nil =>
          cases ys with
          | nil =>
            simp only [litCI, wsLit]
            rw [if_neg (by decide : ¬ isWs ':' = true)]
            simp only [litCI, noWs]
            rw [if_pos (by decide : ciEq ':' ':' = true)]
            simp
          | cons c ys' =>
            simp only [litCI, wsLit]
            rw [if_neg (by simp [upper_not_ws (hyu c (by simp))])]
            simp only [litCI, ciEq_upper_colon (hyu c (by simp)),
              Bool.false_eq_true, if_false, noWs]
            rw [if_neg (by simp)]
        | cons d xs' =>
          cases ys with
          | nil =>
            simp only [litCI, ciEq_colon_upper (hxu d (by simp)),
              Bool.false_eq_true, if_false]
            rw [if_neg (by simp)]
          | cons c ys' =>
            have hrec := ih (c :: ys') r (by simp) (by simp)
              (fun e he => hxu e (by simp [he]))
              (fun e he => hyu e (List.mem_cons_of_mem b he))
            simp only [List.append_eq, List.cons_append] at hrec ⊢
            rw [hrec]
            by_cases hxy : d :: xs' = c :: ys'
            · rw [if_pos hxy, if_pos (by rw [hxy])]
            · rw [if_neg hxy, if_neg (by simp [hxy])]
      · simp only [hab, Bool.false_eq_true, if_false]
        rw [if_neg]
        intro he
        rw [List.cons.injEq] at he
        exact hab (he.1 ▸ ciEq_refl a)

/-- A transcript utterance line: eight timestamp digits, a speaker
token, and the utterance text. -/
structure Utt where
  d1 : Char
  d2 : Char
  d3 : Char
  d4 : Char
  d5 : Char
  d6 : Char
  d7 : Char
  d8 : Char
  txt : Str

/-- The timestamp bracket `[dd:dd - dd:dd]` of a line. -/
def tsPart (u : Utt) : Str :=
  '[' :: u.d1 :: u.d2 :: ':' :: u.d3 :: u.d4 :: ' ' :: '-' :: ' ' ::
    u.d5 :: u.d6 :: ':' :: u.d7 :: u.d8 :: [']']

/-- A full line `[dd:dd - dd:dd] <desig>: <txt>`. -/
def renderLine (u : Utt) (desig : Str) : Str :=
  tsPart u ++ ' ' :: (desig ++ ':' :: ' ' :: u.txt)

/-- Designation state of a line: still the canonical `Спикер <y>`, or
already replaced by a participant name. -/
inductive LS
  | canon (y : Str)
  | named (nm : Str)

/-- The designation text of a line state. -/
def desigOf : LS → Str
  | .canon y => str "Спикер " ++ y
  | .named nm => nm

/-- Effect of one mapping entry `(x, n)` on a line state. -/
def stepLS (x n : Str) : LS → LS
  | .canon y => if y = x then .named n else .canon y
  | .named nm => .named nm

/-- Join lines with newline separators (no trailing newline). -/
def joinLines : List Str → Str
  | [] => []
  | [l] => l
  | l :: ls => l ++ '\n' :: joinLines ls

/-- Render a transcript from utterances and their line states. -/
def renderT (ps : List (Utt × LS)) : Str :=
  joinLines (ps.map (fun p => renderLine p.1 (desigOf p.2)))

/-- A well-formed identifier: non-empty, uppercase alphanumeric. -/
def goodId (x : Str) : Prop := x ≠ [] ∧ ∀ c ∈ x, isUpperAlnum c = true

/-- A participant name that does not interfere with the speaker
patterns: non-empty, not starting with whitespace, free of colons,
brackets and newlines, and not beginning with the word `Спикер` in
any letter case. -/
def cleanName (n : Str) : Prop :=
  n ≠ [] ∧ (∀ c ∈ n.take 1, isWs c = false) ∧
  (∀ c ∈ n, c ≠ ':' ∧ c ≠ '[' ∧ c ≠ '\n') ∧
  litCI (str "Спикер") n = none

/-- Well-formedness of a line state. -/
def goodLS : LS → Prop
  | .canon y => goodId y
  | .named nm => cleanName nm

/-- Well-formedness of an utterance: real digits and inert text. -/
def goodUtt (u : Utt) : Prop :=
  isDigit u.d1 = true ∧ isDigit u.d2 = true ∧ isDigit u.d3 = true ∧
  isDigit u.d4 = true ∧ isDigit u.d5 = true ∧ isDigit u.d6 = true ∧
  isDigit u.d7 = true ∧ isDigit u.d8 = true ∧
  (∀ c ∈ u.txt, c ≠ ':' ∧ c ≠ '[' ∧ c ≠ '\n')

theorem digit_not_ws {c : Char} (h : isDigit c = true) : isWs c = false := by
  simp only [isDigit, decide_eq_true_eq] at h
  simp only [isWs, decide_eq_false_iff_not]
  omega

theorem digit_ne {c : Char} (h : isDigit c = true) : c ≠ '[' ∧ c ≠ '\n' := by
  simp only [isDigit, decide_eq_true_eq] at h
  constructor <;>
  · intro he
    have := congrArg Char.toNat he
    simp at this
    omega

theorem litCI_cons_head_ne {l c : Char} {ls : Str} (h : ciEq c l = false) :
    ∀ t, litCI (l :: ls) (c :: t) = none := by
  intro t
  simp [litCI, h]

theorem litCI_none_append_colon : ∀ (lit n z : Str),
    (∀ c ∈ lit, ciEq ':' c = false) → litCI lit n = none →
    litCI lit (n ++ ':' :: z) = none := by
  intro lit
  induction lit with
  | nil => intro n z _ h; simp [litCI] at h
  | cons l ls ih =>
    intro n z hlit h
    cases n with
    | nil =>
      simp only [List.nil_append]
      exact litCI_cons_head_ne (hlit l (by simp)) z
    | cons c cs =>
      simp only [List.cons_append, litCI] at h ⊢
      by_cases hc : ciEq c l
      · simp only [hc, if_pos] at h ⊢
        exact ih cs z (fun e he => hlit e (by simp [he])) h
      · simp [hc]

theorem matchTsCore_tsPart (u : Utt) (hu : goodUtt u) (rest : Str) :
    matchTsCore (tsPart u ++ rest) = some (tsPart u, rest) := by
  obtain ⟨h1, h2, h3, h4, h5, h6, h7, h8, _⟩ := hu
  simp only [tsPart, List.cons_append, List.nil_append]
  simp [matchTsCore, timePair, h1, h2, h3, h4, h5, h6, h7, h8,
    List.takeWhile_cons, List.dropWhile_cons,
    show isWs ' ' = true from by decide, show isWs '-' = false from by decide,
    digit_not_ws h5]

theorem spk_data : str "Спикер" = 'С' :: str "пикер" := rfl

theorem spk_sp_data : str "Спикер " = 'С' :: str "пикер " := rfl

theorem litCI_spk_at {c : Char} (h : ciEq c 'С' = false) (t : Str) :
    litCI (str "Спикер") (c :: t) = none := by
  rw [spk_data]
  exact litCI_cons_head_ne h t

theorem litCI_lab_at (x : Str) {c : Char} (h : ciEq c 'С' = false) (t : Str) :
    litCI (str "Спикер " ++ x) (c :: t) = none := by
  rw [spk_sp_data, List.cons_append]
  exact litCI_cons_head_ne h t

theorem litCI_spk_nil : litCI (str "Спикер") [] = none := by
  rw [spk_data]
  rfl

theorem litCI_lab_nil (x : Str) : litCI (str "Спикер " ++ x) [] = none := by
  rw [spk_sp_data, List.cons_append]
  rfl

theorem canonDesig_head_fail (x : Str) {c : Char} (h : ciEq c 'С' = false)
    (t : Str) : canonDesig x (c :: t) = none := by
  simp [canonDesig, litCI_spk_at h]

theorem canonDesig_nil (x : Str) : canonDesig x [] = none := by
  simp [canonDesig, litCI_spk_nil]

theorem matchTsCore_head_ne {c : Char} (h : c ≠ '[') (t : Str) :
    matchTsCore (c :: t) = none := by
  unfold matchTsCore
  split
  · rename_i r0 heq
    injection heq with h1 _
    exact absurd h1 h
  · rfl

theorem matchTsCore_nil : matchTsCore [] = none := rfl

theorem matchP1At_head_ne (x : Str) {c : Char} (h : c ≠ '[') (t : Str) :
    matchP1At x (c :: t) = none := by
  simp [matchP1At, matchTsCore_head_ne h]

theorem matchP1At_nil (x : Str) : matchP1At x [] = none := by
  simp [matchP1At, matchTsCore_nil]

theorem matchP2At_head_ne (label : Str) {c : Char} (h : c ≠ '[') (t : Str) :
    matchP2At label (c :: t) = none := by
  simp [matchP2At, matchTsCore_head_ne h]

theorem matchP2At_nil (label : Str) : matchP2At label [] = none := by
  simp [matchP2At, matchTsCore_nil]

theorem wsDesig_nonws {c : Char} (desig : Str → Option Str) (h : isWs c = false)
    (t : Str) : wsDesig desig (c :: t) = desig (c :: t) := by
  simp [wsDesig, h]

theorem matchP3At_bracket (x : Str) (b : Bool) (t : Str) :
    matchP3At x b ('[' :: t) = none := by
  have hd : canonDesig x ('[' :: t) = none :=
    canonDesig_head_fail x (by decide) t
  cases b <;>
    simp [matchP3At, anchorBody, wsDesig_nonws _ (show isWs '[' = false by decide), hd]

theorem matchP3At_false_ne_nl (x : Str) {c : Char} (h : c ≠ '\n') (t : Str) :
    matchP3At x false (c :: t) = none := by
  simp only [matchP3At, Bool.false_eq_true, if_false]
  split
  · rename_i r heq
    injection heq with h1 _
    exact absurd h1 h
  · rfl

theorem matchP3At_nl_bracket (x : Str) (t : Str) :
    matchP3At x false ('\n' :: '[' :: t) = none := by
  have hd : canonDesig x ('[' :: t) = none :=
    canonDesig_head_fail x (by decide) t
  simp [matchP3At, anchorBody, wsDesig_nonws _ (show isWs '[' = false by decide), hd]

theorem matchP3At_nil (x : Str) (b : Bool) : matchP3At x b [] = none := by
  cases b <;> simp [matchP3At, anchorBody, wsDesig, canonDesig_nil]

theorem matchP4At_bracket (x : Str) (b : Bool) (t : Str) :
    matchP4At (str "Спикер " ++ x) b ('[' :: t) = none := by
  have hd : litCI (str "Спикер " ++ x) ('[' :: t) = none :=
    litCI_lab_at x (by decide) t
  cases b <;>
    simp [matchP4At, anchorBody, wsDesig_nonws _ (show isWs '[' = false by decide), hd]

theorem matchP4At_false_ne_nl (label : Str) {c : Char} (h : c ≠ '\n') (t : Str) :
    matchP4At label false (c :: t) = none := by
  simp only [matchP4At, Bool.false_eq_true, if_false]
  split
  · rename_i r heq
    injection heq with h1 _
    exact absurd h1 h
  · rfl

theorem matchP4At_nl_bracket (x : Str) (t : Str) :
    matchP4At (str "Спикер " ++ x) false ('\n' :: '[' :: t) = none := by
  have hd : litCI (str "Спикер " ++ x) ('[' :: t) = none :=
    litCI_lab_at x (by decide) t
  simp [matchP4At, anchorBody, wsDesig_nonws _ (show isWs '[' = false by decide), hd]

theorem matchP4At_nil (x : Str) (b : Bool) :
    matchP4At (str "Спикер " ++ x) b [] = none := by
  cases b <;> simp [matchP4At, anchorBody, wsDesig, litCI_lab_nil]

theorem spk_sp_eq : str "Спикер " = str "Спикер" ++ [' '] := rfl

theorem wsLit_nonws_head (lit : Str) {c : Char} (h : isWs c = false) (cs : Str) :
    wsLit lit (c :: cs) = noWs (litCI lit (c :: cs)) := by
  simp [wsLit, h]

theorem wsLit_sp_self (lit V : Str)
    (hl : ∃ c cs, lit = c :: cs ∧ isWs c = false) :
    wsLit lit (' ' :: (lit ++ V)) = some ([' '], V) := by
  obtain ⟨c, cs, hlit, hc⟩ := hl
  simp only [wsLit, show isWs ' ' = true from by decide, if_true]
  rw [hlit, List.cons_append, wsLit_nonws_head _ hc, ← List.cons_append, ← hlit,
    litCI_self_append]
  rfl

theorem p1_tail (x y R : Str) (hx : goodId x) (hy : goodId y) :
    (match ws1Lit x (' ' :: (y ++ ':' :: R)) with
     | some (_, r2) => wsLit [':'] r2
     | none => none) = if x = y then some (([] : Str), R) else none := by
  obtain ⟨hxne, hxu⟩ := hx
  obtain ⟨hyne, hyu⟩ := hy
  cases y with
  | nil => exact absurd rfl hyne
  | cons b ys =>
    have hbws : isWs b = false := upper_not_ws (hyu b (by simp))
    simp only [List.cons_append, ws1Lit, show isWs ' ' = true from by decide,
      if_true]
    rw [wsLit_nonws_head x hbws]
    have hk := litCI_id_colon x (b :: ys) R hxne (by simp) hxu hyu
    simp only [List.cons_append] at hk
    cases hlit : litCI x (b :: (ys ++ ':' :: R)) with
    | none =>
      rw [hlit] at hk
      simp only [hlit, noWs]
      exact hk
    | some r1 =>
      rw [hlit] at hk
      simp only [hlit, noWs]
      exact hk

theorem matchP1At_line_canon (x y : Str) (u : Utt) (su : Str) (hu : goodUtt u)
    (hx : goodId x) (hy : goodId y) :
    matchP1At x (renderLine u (str "Спикер " ++ y) ++ su) =
      if x = y then
        some (tsPart u ++ [' '],
          (renderLine u (str "Спикер " ++ y) ++ su).take
            ((renderLine u (str "Спикер " ++ y) ++ su).length -
              (' ' :: (u.txt ++ su)).length),
          ' ' :: (u.txt ++ su))
      else none := by
  have hs : renderLine u (str "Спикер " ++ y) ++ su =
      tsPart u ++ (' ' :: (str "Спикер" ++
        (' ' :: (y ++ ':' :: (' ' :: (u.txt ++ su)))))) := by
    simp [renderLine, spk_sp_eq]
  rw [hs]
  simp only [matchP1At]
  rw [matchTsCore_tsPart u hu _]
  simp only
  rw [wsLit_sp_self (str "Спикер") _ ⟨'С', str "пикер", spk_data, by decide⟩]
  simp only
  have hk := p1_tail x y (' ' :: (u.txt ++ su)) hx hy
  cases hws : ws1Lit x (' ' :: (y ++ ':' :: (' ' :: (u.txt ++ su)))) with
  | none =>
    rw [hws] at hk
    simp only
    by_cases hxy : x = y
    · rw [if_pos hxy] at hk
      exact absurd hk (by simp)
    · rw [if_neg hxy]
  | some p =>
    obtain ⟨w2, r2⟩ := p
    rw [hws] at hk
    simp only at hk ⊢
    by_cases hxy : x = y
    · rw [if_pos hxy] at hk ⊢
      rw [hk]
    · rw [if_neg hxy] at hk ⊢
      rw [hk]

theorem matchP1At_line_named (x nm : Str) (u : Utt) (su : Str) (hu : goodUtt u)
    (hnm : cleanName nm) :
    matchP1At x (renderLine u nm ++ su) = none := by
  have hs : renderLine u nm ++ su =
      tsPart u ++ (' ' :: (nm ++ ':' :: (' ' :: (u.txt ++ su)))) := by
    simp [renderLine]
  rw [hs]
  simp only [matchP1At]
  rw [matchTsCore_tsPart u hu _]
  simp only
  obtain ⟨hne, hhd, _, hlit⟩ := hnm
  cases nm with
  | nil => exact absurd rfl hne
  | cons c cs =>
    have hcw : isWs c = false := hhd c (by simp)
    have hfail : litCI (str "Спикер")
        (c :: (cs ++ ':' :: (' ' :: (u.txt ++ su)))) = none := by
      have := litCI_none_append_colon (str "Спикер") (c :: cs)
        (' ' :: (u.txt ++ su)) (by decide) hlit
      simpa using this
    simp only [List.cons_append, List.append_eq, wsLit,
      show isWs ' ' = true from by decide,
      if_true, hcw, Bool.false_eq_true, if_false, hfail, noWs,
      litCI_spk_at (show ciEq ' ' 'С' = false from by decide)]

theorem wsLit_sp_nonws (lit : Str) {c : Char} (h : isWs c = false) (cs : Str) :
    wsLit lit (' ' :: c :: cs) =
      match litCI lit (c :: cs) with
      | some r => some ([' '], r)
      | none => noWs (litCI lit (' ' :: c :: cs)) := by
  simp only [wsLit, show isWs ' ' = true from by decide, if_true, h,
    Bool.false_eq_true, if_false]
  cases litCI lit (c :: cs) <;> simp [noWs]

theorem matchP2At_line_ne (x y : Str) (u : Utt) (su : Str) (hu : goodUtt u)
    (hx : goodId x) (hy : goodId y) (hne : x ≠ y) :
    matchP2At (str "Спикер " ++ x) (renderLine u (str "Спикер " ++ y) ++ su) =
      none := by
  have hs : renderLine u (str "Спикер " ++ y) ++ su =
      tsPart u ++ (' ' :: (str "Спикер " ++
        (y ++ ':' :: (' ' :: (u.txt ++ su))))) := by
    simp [renderLine]
  rw [hs]
  simp only [matchP2At]
  rw [matchTsCore_tsPart u hu _]
  simp only
  have hW : str "Спикер " ++ (y ++ ':' :: (' ' :: (u.txt ++ su))) =
      'С' :: (str "пикер " ++ (y ++ ':' :: (' ' :: (u.txt ++ su)))) := by
    rw [spk_sp_data, List.cons_append]
  have hred : litCI (str "Спикер " ++ x)
      (str "Спикер " ++ (y ++ ':' :: (' ' :: (u.txt ++ su)))) =
      litCI x (y ++ ':' :: (' ' :: (u.txt ++ su))) := by
    rw [litCI_append_lit, litCI_self_append]
  have hws : wsLit (str "Спикер " ++ x)
      (' ' :: (str "Спикер " ++ (y ++ ':' :: (' ' :: (u.txt ++ su))))) =
      match litCI x (y ++ ':' :: (' ' :: (u.txt ++ su))) with
      | some r => some ([' '], r)
      | none => none := by
    rw [hW, wsLit_sp_nonws _ (show isWs 'С' = false from by decide), ← hW, hred]
    cases litCI x (y ++ ':' :: (' ' :: (u.txt ++ su))) with
    | some r => rfl
    | none =>
      simp only
      rw [litCI_lab_at x (show ciEq ' ' 'С' = false from by decide)]
      rfl
  rw [hws]
  have hk := litCI_id_colon x y (' ' :: (u.txt ++ su)) hx.1 hy.1 hx.2 hy.2
  rw [if_neg hne] at hk
  cases hlit : litCI x (y ++ ':' :: (' ' :: (u.txt ++ su))) with
  | none => rfl
  | some r1 =>
    rw [hlit] at hk
    simp only at hk ⊢
    rw [hk]

theorem matchP2At_line_named (x nm : Str) (u : Utt) (su : Str) (hu : goodUtt u)
    (hnm : cleanName nm) :
    matchP2At (str "Спикер " ++ x) (renderLine u nm ++ su) = none := by
  have hs : renderLine u nm ++ su =
      tsPart u ++ (' ' :: (nm ++ ':' :: (' ' :: (u.txt ++ su)))) := by
    simp [renderLine]
  rw [hs]
  simp only [matchP2At]
  rw [matchTsCore_tsPart u hu _]
  simp only
  obtain ⟨hne, hhd, _, hlit⟩ := hnm
  cases nm with
  | nil => exact absurd rfl hne
  | cons c cs =>
    have hcw : isWs c = false := hhd c (by simp)
    have hfail : litCI (str "Спикер " ++ x)
        (c :: (cs ++ ':' :: (' ' :: (u.txt ++ su)))) = none := by
      rw [spk_sp_eq, List.append_assoc, litCI_append_lit]
      have := litCI_none_append_colon (str "Спикер") (c :: cs)
        (' ' :: (u.txt ++ su)) (by decide) hlit
      simp only [List.cons_append] at this
      rw [this]
    simp only [List.cons_append, List.append_eq, wsLit,
      show isWs ' ' = true from by decide,
      if_true, hcw, Bool.false_eq_true, if_false, hfail, noWs,
      litCI_lab_at x (show ciEq ' ' 'С' = false from by decide)]

theorem runReplB_skip_line (M : Bool → Str → Option (Str × Str × Str))
    (repl : Str → Str → Str) (b : Bool) (lt v : Str)
    (hb : M b ('[' :: (lt ++ v)) = none)
    (hlt : ∀ c ∈ lt, ∀ t : Str, M false (c :: t) = none) :
    runReplB M repl b ('[' :: (lt ++ v)) =
      '[' :: (lt ++ runReplB M repl false v) := by
  rw [runReplB_cons_none M repl b _ _ hb, runReplB_chars M repl lt v hlt]

theorem joinLines_cons_head (lt : Str) (ls : List Str) :
    ∃ t, joinLines (('[' :: lt) :: ls) = '[' :: t := by
  cases ls <;> simp [joinLines]

/-- All characters of a well-formed designation are inert: no newline,
no opening bracket. -/
theorem desig_chars (ls : LS) (hls : goodLS ls) :
    ∀ c ∈ desigOf ls, c ≠ '\n' ∧ c ≠ '[' := by
  cases ls with
  | canon y =>
    intro c hc
    simp only [desigOf] at hc
    rcases List.mem_append.mp hc with h | h
    · have hall : ∀ c ∈ str "Спикер ", c ≠ '\n' ∧ c ≠ '[' := by decide
      exact hall c h
    · have h3 := upper_all_ne_nl hls.2 c h
      exact ⟨h3.2.1, h3.1⟩
  | named nm =>
    intro c hc
    have h3 := hls.2.2.1 c hc
    exact ⟨h3.2.2, h3.2.1⟩

/-- A rendered line decomposes as `'['` followed by inert characters. -/
theorem renderLine_shape (u : Utt) (d : Str) (hu : goodUtt u)
    (hd : ∀ c ∈ d, c ≠ '\n' ∧ c ≠ '[') :
    renderLine u d = '[' :: (u.d1 :: u.d2 :: ':' :: u.d3 :: u.d4 :: ' ' :: '-' ::
      ' ' :: u.d5 :: u.d6 :: ':' :: u.d7 :: u.d8 :: ']' :: ' ' ::
      (d ++ ':' :: ' ' :: u.txt)) ∧
    ∀ c ∈ (u.d1 :: u.d2 :: ':' :: u.d3 :: u.d4 :: ' ' :: '-' :: ' ' :: u.d5 ::
      u.d6 :: ':' :: u.d7 :: u.d8 :: ']' :: ' ' :: (d ++ ':' :: ' ' :: u.txt)),
      c ≠ '\n' ∧ c ≠ '[' := by
  obtain ⟨h1, h2, h3, h4, h5, h6, h7, h8, htxt⟩ := hu
  constructor
  · simp [renderLine, tsPart]
  · intro c hc
    simp only [List.mem_cons, List.mem_append] at hc
    rcases hc with rfl|rfl|rfl|rfl|rfl|rfl|rfl|rfl|rfl|rfl|rfl|rfl|rfl|rfl|rfl|hcd|rfl|rfl|hct
    · exact ⟨(digit_ne h1).2, (digit_ne h1).1⟩
    · exact ⟨(digit_ne h2).2, (digit_ne h2).1⟩
    · exact ⟨by decide, by decide⟩
    · exact ⟨(digit_ne h3).2, (digit_ne h3).1⟩
    · exact ⟨(digit_ne h4).2, (digit_ne h4).1⟩
    · exact ⟨by decide, by decide⟩
    · exact ⟨by decide, by decide⟩
    · exact ⟨by decide, by decide⟩
    · exact ⟨(digit_ne h5).2, (digit_ne h5).1⟩
    · exact ⟨(digit_ne h6).2, (digit_ne h6).1⟩
    · exact ⟨by decide, by decide⟩
    · exact ⟨(digit_ne h7).2, (digit_ne h7).1⟩
    · exact ⟨(digit_ne h8).2, (digit_ne h8).1⟩
    · exact ⟨by decide, by decide⟩
    · exact ⟨by decide, by decide⟩
    · exact hd c hcd
    · exact ⟨by decide, by decide⟩
    · exact ⟨by decide, by decide⟩
    · have := htxt c hct
      exact ⟨this.2.2, this.2.1⟩

/-- A replacement pass whose matcher fails at every position of a
joined list of inert lines leaves the text unchanged. -/
theorem runReplB_id_lines (M : Bool → Str → Option (Str × Str × Str))
    (repl : Str → Str → Str) :
    ∀ (ls : List Str) (b : Bool),
      (∀ l ∈ ls, ∃ lt, l = '[' :: lt ∧ ∀ c ∈ lt, c ≠ '\n' ∧ c ≠ '[') →
      (∀ l ∈ ls, ∀ (su : Str) (b' : Bool), M b' (l ++ su) = none) →
      (∀ (c : Char), c ≠ '\n' → c ≠ '[' → ∀ t : Str, M false (c :: t) = none) →
      (∀ t : Str, M false ('\n' :: '[' :: t) = none) →
      (∀ b' : Bool, M b' [] = none) →
      runReplB M repl b (joinLines ls) = joinLines ls := by
  intro ls
  induction ls with
  | nil =>
    intro b _ _ _ _ hnil
    exact runReplB_nil M repl b (hnil b)
  | cons l ls ih =>
    intro b hshape hhead hmid hnl hnil
    obtain ⟨lt, hl, hlt⟩ := hshape l (by simp)
    subst hl
    have hltM : ∀ c ∈ lt, ∀ t : Str, M false (c :: t) = none :=
      fun c hc t => hmid c (hlt c hc).1 (hlt c hc).2 t
    cases ls with
    | nil =>
      simp only [joinLines]
      have hb : M b ('[' :: (lt ++ [])) = none := by
        have := hhead ('[' :: lt) (by simp) [] b
        simpa using this
      rw [show ('[' :: lt : Str) = '[' :: (lt ++ []) from by simp,
        runReplB_skip_line M repl b lt [] hb hltM,
        runReplB_nil M repl false (hnil false)]
    | cons l2 ls2 =>
      obtain ⟨lt2, hl2, _⟩ := hshape l2 (by simp)
      subst hl2
      obtain ⟨t2, hjoin⟩ := joinLines_cons_head lt2 ls2
      simp only [joinLines, List.cons_append]
      have hb : M b ('[' :: (lt ++ '\n' :: joinLines (('[' :: lt2) :: ls2))) =
          none := by
        have := hhead ('[' :: lt) (by simp)
          ('\n' :: joinLines (('[' :: lt2) :: ls2)) b
        simpa using this
      rw [runReplB_skip_line M repl b lt _ hb hltM,
        runReplB_cons_none M repl false '\n' _ (by rw [hjoin]; exact hnl t2),
        ih false (fun l' h' => hshape l' (by simp [h']))
          (fun l' h' => hhead l' (by simp [h'])) hmid hnl hnil]

theorem jsTrim_cons_ne_nil {c : Char} (h : isWs c = false) (t : Str) :
    jsTrim (c :: t) ≠ [] := by
  unfold jsTrim
  intro he
  rw [List.dropWhile_cons, h] at he
  simp only [Bool.false_eq_true, if_false, List.reverse_eq_nil_iff] at he
  have := List.dropWhile_eq_nil_iff.mp he c (by simp)
  rw [h] at this
  exact absurd this (by simp)

theorem replJS_ts (spId label n : Str) (u : Utt) (m : Str) :
    replJS spId label n (tsPart u ++ [' ']) m = (tsPart u ++ [' ']) ++ n ++ [':'] := by
  unfold replJS
  rw [if_pos]
  constructor
  · simp [tsPart]
  · simp only [tsPart, List.cons_append]
    exact jsTrim_cons_ne_nil (show isWs '[' = false from by decide) _

theorem runReplB_P1_line (x n : Str) (hx : goodId x) (u : Utt) (ls : LS)
    (hu : goodUtt u) (hls : goodLS ls) (v : Str) (b : Bool) :
    runReplB (fun _ s => matchP1At x s) (replJS x (str "Спикер " ++ x) n) b
      (renderLine u (desigOf ls) ++ v) =
    renderLine u (desigOf (stepLS x n ls)) ++
      runReplB (fun _ s => matchP1At x s) (replJS x (str "Спикер " ++ x) n)
        false v := by
  obtain ⟨hsh, hch⟩ := renderLine_shape u (desigOf ls) hu (desig_chars ls hls)
  have hchM : ∀ c ∈ (u.d1 :: u.d2 :: ':' :: u.d3 :: u.d4 :: ' ' :: '-' :: ' ' ::
      u.d5 :: u.d6 :: ':' :: u.d7 :: u.d8 :: ']' :: ' ' ::
      (desigOf ls ++ ':' :: ' ' :: u.txt)), ∀ t : Str,
      matchP1At x (c :: t) = none :=
    fun c hc t => matchP1At_head_ne x (hch c hc).2 t
  cases ls with
  | canon y =>
    by_cases hxy : x = y
    · subst hxy
      have hm := matchP1At_line_canon x x u v hu hx hx
      rw [if_pos rfl] at hm
      simp only [desigOf] at hsh hch hchM hm ⊢
      rw [hsh, List.cons_append] at hm ⊢
      rw [runReplB_cons_some _ _ b '[' _ _ _ _ hm (by
        simp only [List.length_cons, List.length_append]
        omega)]
      rw [replJS_ts x (str "Спикер " ++ x) n u]
      rw [show (' ' :: (u.txt ++ v) : Str) = (' ' :: u.txt) ++ v from by simp]
      rw [runReplB_chars _ _ (' ' :: u.txt) v (by
        intro c hc t
        rcases List.mem_cons.mp hc with rfl | hct
        · exact matchP1At_head_ne x (by decide) t
        · exact matchP1At_head_ne x ((hu.2.2.2.2.2.2.2.2 c hct).2.1) t)]
      simp only [stepLS, if_pos rfl, eq_self_iff_true, if_true, desigOf,
        renderLine, tsPart, List.cons_append, List.nil_append,
        List.append_assoc]
    · have hm := matchP1At_line_canon x y u v hu hx hls
      rw [if_neg hxy] at hm
      have hyx : y ≠ x := fun h => hxy h.symm
      have hstep : stepLS x n (LS.canon y) = LS.canon y := by
        simp only [stepLS, if_neg hyx]
      rw [hstep]
      simp only [desigOf] at hsh hch hchM hm ⊢
      rw [hsh, List.cons_append] at hm ⊢
      exact runReplB_skip_line _ _ b _ v hm (fun c hc t => hchM c hc t)
  | named nm =>
    have hm := matchP1At_line_named x nm u v hu hls
    simp only [desigOf] at hsh hch hchM hm ⊢
    simp only [stepLS, desigOf]
    rw [hsh, List.cons_append] at hm ⊢
    exact runReplB_skip_line _ _ b _ v hm (fun c hc t => hchM c hc t)

theorem runReplB_P1 (x n : Str) (hx : goodId x) :
    ∀ (ps : List (Utt × LS)) (b : Bool),
      (∀ p ∈ ps, goodUtt p.1 ∧ goodLS p.2) →
      runReplB (fun _ s => matchP1At x s) (replJS x (str "Спикер " ++ x) n) b
        (renderT ps) = renderT (ps.map (fun p => (p.1, stepLS x n p.2))) := by
  intro ps
  induction ps with
  | nil =>
    intro b _
    simp only [renderT, List.map_nil, joinLines]
    exact runReplB_nil _ _ b (matchP1At_nil x)
  | cons p ps ih =>
    intro b hg
    obtain ⟨u, ls⟩ := p
    have hu := (hg (u, ls) (by simp)).1
    have hls := (hg (u, ls) (by simp)).2
    cases ps with
    | nil =>
      simp only [renderT, List.map_cons, List.map_nil, joinLines]
      conv_lhs => rw [← List.append_nil (renderLine u (desigOf ls))]
      rw [runReplB_P1_line x n hx u ls hu hls [] b,
        runReplB_nil _ _ false (matchP1At_nil x), List.append_nil]
    | cons q qs =>
      simp only [renderT, List.map_cons, joinLines]
      rw [runReplB_P1_line x n hx u ls hu hls _ b,
        runReplB_cons_none _ _ false '\n' _
          (matchP1At_head_ne x (by decide) _)]
      have hih := ih false (fun p' h' => hg p' (by simp [h']))
      simp only [renderT, List.map_cons] at hih
      rw [hih]

theorem dropWhile_id_of_not {l : Str} (h : ∀ c ∈ l, isWs c = false) :
    List.dropWhile isWs l = l := by
  cases l with
  | nil => rfl
  | cons c t =>
    rw [List.dropWhile_cons, h c (by simp)]
    simp

theorem jsTrim_id (x : Str) (h : ∀ c ∈ x, isWs c = false) : jsTrim x = x := by
  unfold jsTrim
  rw [dropWhile_id_of_not h,
    dropWhile_id_of_not (fun c hc => h c (List.mem_reverse.mp hc)),
    List.reverse_reverse]

theorem stripSpeakerTag_canon (x : Str) (hx : goodId x) :
    stripSpeakerTag (str "Спикер " ++ x) = x := by
  obtain ⟨hne, hxu⟩ := hx
  cases x with
  | nil => exact absurd rfl hne
  | cons a xs =>
    have haw : isWs a = false := upper_not_ws (hxu a (by simp))
    unfold stripSpeakerTag
    rw [spk_sp_eq, List.append_assoc, litCI_self_append, List.singleton_append]
    simp only [List.takeWhile_cons, show isWs ' ' = true from by decide, if_true]
    rw [if_neg (by simp)]
    rw [List.dropWhile_cons, show isWs ' ' = true from by decide]
    simp only [if_true]
    rw [dropWhile_id_of_not (fun c hc => upper_not_ws (hxu c hc))]
    exact jsTrim_id (a :: xs) (fun c hc => upper_not_ws (hxu c hc))

theorem runReplB_P2_id (x n : Str) (hx : goodId x) (ps : List (Utt × LS))
    (hg : ∀ p ∈ ps, goodUtt p.1 ∧ goodLS p.2)
    (hno : ∀ p ∈ ps, ∀ y, p.2 = LS.canon y → x ≠ y) :
    runReplB (fun _ s => matchP2At (str "Спикер " ++ x) s)
      (replJS x (str "Спикер " ++ x) n) true (renderT ps) = renderT ps := by
  simp only [renderT]
  apply runReplB_id_lines
  · intro l hl
    simp only [List.mem_map] at hl
    obtain ⟨p, hp, rfl⟩ := hl
    obtain ⟨hsh, hch⟩ := renderLine_shape p.1 (desigOf p.2) (hg p hp).1
      (desig_chars p.2 (hg p hp).2)
    exact ⟨_, hsh, hch⟩
  · intro l hl su b'
    simp only [List.mem_map] at hl
    obtain ⟨p, hp, rfl⟩ := hl
    obtain ⟨u, ls⟩ := p
    cases ls with
    | canon y =>
      simp only [desigOf]
      exact matchP2At_line_ne x y u su (hg (u, LS.canon y) hp).1 hx
        (hg (u, LS.canon y) hp).2 (hno (u, LS.canon y) hp y rfl)
    | named nm =>
      simp only [desigOf]
      exact matchP2At_line_named x nm u su (hg (u, LS.named nm) hp).1
        (hg (u, LS.named nm) hp).2
  · intro c _ h2 t
    exact matchP2At_head_ne _ h2 t
  · intro t
    exact matchP2At_head_ne _ (show ('\n' : Char) ≠ '[' from by decide) ('[' :: t)
  · intro b'
    exact matchP2At_nil _

theorem runReplB_P3_id (x : Str) (repl : Str → Str → Str)
    (ps : List (Utt × LS)) (hg : ∀ p ∈ ps, goodUtt p.1 ∧ goodLS p.2) :
    runReplB (matchP3At x) repl true (renderT ps) = renderT ps := by
  simp only [renderT]
  apply runReplB_id_lines
  · intro l hl
    simp only [List.mem_map] at hl
    obtain ⟨p, hp, rfl⟩ := hl
    obtain ⟨hsh, hch⟩ := renderLine_shape p.1 (desigOf p.2) (hg p hp).1
      (desig_chars p.2 (hg p hp).2)
    exact ⟨_, hsh, hch⟩
  · intro l hl su b'
    simp only [List.mem_map] at hl
    obtain ⟨p, hp, rfl⟩ := hl
    obtain ⟨hsh, _⟩ := renderLine_shape p.1 (desigOf p.2) (hg p hp).1
      (desig_chars p.2 (hg p hp).2)
    rw [hsh, List.cons_append]
    exact matchP3At_bracket x b' _
  · intro c h1 _ t
    exact matchP3At_false_ne_nl x h1 t
  · intro t
    exact matchP3At_nl_bracket x t
  · intro b'
    exact matchP3At_nil x b'

theorem runReplB_P4_id (x : Str) (repl : Str → Str → Str)
    (ps : List (Utt × LS)) (hg : ∀ p ∈ ps, goodUtt p.1 ∧ goodLS p.2) :
    runReplB (matchP4At (str "Спикер " ++ x)) repl true (renderT ps) =
      renderT ps := by
  simp only [renderT]
  apply runReplB_id_lines
  · intro l hl
    simp only [List.mem_map] at hl
    obtain ⟨p, hp, rfl⟩ := hl
    obtain ⟨hsh, hch⟩ := renderLine_shape p.1 (desigOf p.2) (hg p hp).1
      (desig_chars p.2 (hg p hp).2)
    exact ⟨_, hsh, hch⟩
  · intro l hl su b'
    simp only [List.mem_map] at hl
    obtain ⟨p, hp, rfl⟩ := hl
    obtain ⟨hsh, _⟩ := renderLine_shape p.1 (desigOf p.2) (hg p hp).1
      (desig_chars p.2 (hg p hp).2)
    rw [hsh, List.cons_append]
    exact matchP4At_bracket x b' _
  · intro c h1 _ t
    exact matchP4At_false_ne_nl _ h1 t
  · intro t
    exact matchP4At_nl_bracket x t
  · intro b'
    exact matchP4At_nil x b'

theorem goodLS_step (x n : Str) (hn : cleanName n) (ls : LS) (h : goodLS ls) :
    goodLS (stepLS x n ls) := by
  cases ls with
  | canon y =>
    simp only [stepLS]
    by_cases hyx : y = x
    · rw [if_pos hyx]
      exact hn
    · rw [if_neg hyx]
      exact h
  | named nm => exact h

theorem applyEntry_canon (x n : Str) (hx : goodId x) (hn : cleanName n)
    (ps : List (Utt × LS)) (hg : ∀ p ∈ ps, goodUtt p.1 ∧ goodLS p.2) :
    applyEntry (str "Спикер " ++ x) n (renderT ps) =
      renderT (ps.map (fun p => (p.1, stepLS x n p.2))) := by
  simp only [applyEntry]
  rw [stripSpeakerTag_canon x hx]
  rw [runReplB_P1 x n hx ps true hg]
  have hg' : ∀ p ∈ ps.map (fun p => (p.1, stepLS x n p.2)),
      goodUtt p.1 ∧ goodLS p.2 := by
    intro p hp
    simp only [List.mem_map] at hp
    obtain ⟨q, hq, rfl⟩ := hp
    exact ⟨(hg q hq).1, goodLS_step x n hn q.2 (hg q hq).2⟩
  have hno : ∀ p ∈ ps.map (fun p => (p.1, stepLS x n p.2)),
      ∀ y, p.2 = LS.canon y → x ≠ y := by
    intro p hp y hpy
    simp only [List.mem_map] at hp
    obtain ⟨q, hq, rfl⟩ := hp
    simp only at hpy
    cases hq2 : q.2 with
    | canon z =>
      rw [hq2] at hpy
      simp only [stepLS] at hpy
      by_cases hzx : z = x
      · rw [if_pos hzx] at hpy
        exact absurd hpy (by simp)
      · rw [if_neg hzx] at hpy
        injection hpy with hzy
        exact fun hxy => hzx (hzy ▸ hxy.symm)
    | named nm =>
      rw [hq2] at hpy
      simp only [stepLS] at hpy
      exact absurd hpy (by simp)
  rw [runReplB_P2_id x n hx _ hg' hno,
    runReplB_P3_id x _ _ hg',
    runReplB_P4_id x _ _ hg']

instance (u : Utt) : Decidable (goodUtt u) := by
  unfold goodUtt
  infer_instance

instance (x : Str) : Decidable (goodId x) := by
  unfold goodId
  infer_instance

instance (n : Str) : Decidable (cleanName n) := by
  unfold cleanName
  infer_instance

instance (ls : LS) : Decidable (goodLS ls) := by
  cases ls <;> (unfold goodLS; infer_instance)

theorem applyMapping_cons (e : Str × Str) (es : List (Str × Str)) (text : Str) :
    applyMappingToTranscript (e :: es) text =
      applyMappingToTranscript es
        (if jsTrim e.2 = [] then text else applyEntry e.1 e.2 text) := by
  simp [applyMappingToTranscript]

theorem applyMapping_canon (entries : List (Str × Str)) :
    ∀ (ps : List (Utt × LS)),
      (∀ e ∈ entries, goodId e.1 ∧ cleanName e.2) →
      (∀ p ∈ ps, goodUtt p.1 ∧ goodLS p.2) →
      applyMappingToTranscript
          (entries.map (fun e => (str "Спикер " ++ e.1, e.2))) (renderT ps) =
        renderT (ps.map (fun p =>
          (p.1, entries.foldl (fun a e => stepLS e.1 e.2 a) p.2))) := by
  induction entries with
  | nil =>
    intro ps _ _
    simp [applyMappingToTranscript]
  | cons e es ih =>
    intro ps he hp
    have hcn := (he e (by simp)).2
    have htr : jsTrim e.2 ≠ [] := by
      obtain ⟨hne, hhd, _, _⟩ := hcn
      obtain ⟨c, t, hct⟩ : ∃ c t, e.2 = c :: t := by
        cases h2 : e.2 with
        | nil => exact absurd h2 hne
        | cons c t => exact ⟨c, t, rfl⟩
      rw [hct]
      exact jsTrim_cons_ne_nil (hhd c (by simp [hct])) t
    rw [List.map_cons, applyMapping_cons]
    simp only
    rw [if_neg htr, applyEntry_canon e.1 e.2 (he e (by simp)).1 hcn ps hp]
    have hg' : ∀ p ∈ ps.map (fun p => (p.1, stepLS e.1 e.2 p.2)),
        goodUtt p.1 ∧ goodLS p.2 := by
      intro p hp'
      simp only [List.mem_map] at hp'
      obtain ⟨q, hq, rfl⟩ := hp'
      exact ⟨(hp q hq).1, goodLS_step e.1 e.2 hcn q.2 (hp q hq).2⟩
    rw [ih (ps.map (fun p => (p.1, stepLS e.1 e.2 p.2)))
      (fun e' h' => he e' (by simp [h'])) hg']
    simp only [List.map_map]
    rfl

/-- C1 (amended): the spec claim fails in general because the entries
are applied sequentially and each pass re-scans the previous pass's
output (see `c1_cascading_replacement_counterexample`); under the
non-interference conditions — a structured transcript of lines
`[dd:dd - dd:dd] <designation>: text` whose ids are uppercase
alphanumeric and whose utterance text has no colon, bracket or
newline, and a mapping of canonical labels `Спикер <id>` to names
that are non-empty, do not start with whitespace, contain no colon,
bracket or newline and do not begin case-insensitively with `Спикер`
— `applyMappingToTranscript` rewrites exactly the lines of mapped
labels to `[dd:dd - dd:dd] <name>: text` with the timestamp bracket
preserved byte-for-byte and leaves every other line unchanged; and
scenario B holds concretely as stated. -/
theorem c1_structured_replacement_correct (ps : List (Utt × LS))
    (entries : List (Str × Str))
    (hp : ∀ p ∈ ps, goodUtt p.1 ∧ goodLS p.2)
    (he : ∀ e ∈ entries, goodId e.1 ∧ cleanName e.2) :
    (applyMappingToTranscript
        (entries.map (fun e => (str "Спикер " ++ e.1, e.2))) (renderT ps) =
      renderT (ps.map (fun p =>
        (p.1, entries.foldl (fun a e => stepLS e.1 e.2 a) p.2)))) ∧
    applyMappingToTranscript [(str "Speaker A", str "John Smith")]
      (str "[00:01 - 00:05] Speaker A: hello") =
      str "[00:01 - 00:05] John Smith: hello" :=
  ⟨applyMapping_canon entries ps he hp, by decide⟩

/-- Witness for the amended C1 theorem at a concrete one-line
transcript and one-entry mapping. -/
theorem c1_structured_replacement_correct_witness :
    (applyMappingToTranscript
        ([(str "A", str "Иван")].map (fun e => (str "Спикер " ++ e.1, e.2)))
        (renderT [(⟨'0', '0', '0', '1', '0', '0', '0', '2', str "да"⟩,
          LS.canon (str "A"))]) =
      renderT ([(⟨'0', '0', '0', '1', '0', '0', '0', '2', str "да"⟩,
          LS.canon (str "A"))].map (fun p =>
        (p.1, [(str "A", str "Иван")].foldl
          (fun a e => stepLS e.1 e.2 a) p.2)))) ∧
    applyMappingToTranscript [(str "Speaker A", str "John Smith")]
      (str "[00:01 - 00:05] Speaker A: hello") =
      str "[00:01 - 00:05] John Smith: hello" :=
  c1_structured_replacement_correct
    [(⟨'0', '0', '0', '1', '0', '0', '0', '2', str "да"⟩, LS.canon (str "A"))]
    [(str "A", str "Иван")] (by decide) (by decide)

end Proto
